import Mathlib

/-!
# Verification of the incremental N-Queens backtracking engine

Shallow embedding of `SolverWrapper` from `src/main.rs` (the incremental,
steppable N-Queens depth-first search engine) together with proofs of the
specification's claims about it.

The board is an N×N grid `board : List (List ℕ)` indexed `board[row][col]`
holding `0`/`1` occupancy, exactly as the Rust `Vec<Vec<u8>>`.  The stack,
cursor, flags, solutions log, unique-solution set and last-solution snapshot
mirror the Rust struct field by field.
-/

set_option maxHeartbeats 2000000
set_option maxRecDepth 8000

/-- Read `board[r][c]`, with `0` (empty) returned for out-of-range indices, matching
the fact that the Rust code only ever indexes in range. -/
def cell (b : List (List ℕ)) (r c : ℕ) : ℕ :=
  (b.getD r []).getD c 0

/-- Write `board[r][c] = v`, with out-of-range writes dropped (never happens in range of
the engine's use). -/
def setCell (b : List (List ℕ)) (r c v : ℕ) : List (List ℕ) :=
  b.set r ((b.getD r []).set c v)

/-- The solver state: field-by-field translation of the Rust
`struct SolverWrapper`. -/
structure SolverWrapper where
  n : ℕ
  board : List (List ℕ)
  solutions : List String
  stack : List (ℕ × ℕ)
  col : ℕ
  row : ℕ
  backtracking : Bool
  finished : Bool
  last_solution_board : Option (List (List ℕ))
  unique_solutions : List (List ℕ)
deriving DecidableEq, Repr

/-- Translation of `SolverWrapper::new(n)`. -/
def SolverWrapper.new (n : ℕ) : SolverWrapper where
  n := n
  board := List.replicate n (List.replicate n 0)
  solutions := []
  stack := []
  col := 0
  row := 0
  backtracking := false
  finished := false
  last_solution_board := none
  unique_solutions := []

/-- The `to_sol` closure of `get_variants`: rebuild a row-permutation vector
from a coordinate list (`v = vec![0; n]; for (x, y) in pts { v[x] = y }`). -/
def toSolVec (n : ℕ) (pts : List (ℕ × ℕ)) : List ℕ :=
  pts.foldl (fun v p => v.set p.1 p.2) (List.replicate n 0)

/-- The 4-iteration rotate/flip loop of `get_variants`: at each iteration push
the current coordinates and their horizontal flip, then rotate by 90°. -/
def variantsAux (n : ℕ) : ℕ → List (ℕ × ℕ) → List (List ℕ)
  | 0, _ => []
  | t + 1, curr =>
      toSolVec n curr ::
      toSolVec n (curr.map (fun p => (n - 1 - p.1, p.2))) ::
      variantsAux n t (curr.map (fun p => (p.2, n - 1 - p.1)))

/-- Translation of `SolverWrapper::get_variants`: the 8 dihedral symmetry variants of a
row-permutation. -/
def SolverWrapper.get_variants (sol : List ℕ) : List (List ℕ) :=
  variantsAux sol.length 4 sol.enum

/-- Translation of `SolverWrapper::is_new_unique`: true iff no symmetry variant of `sol` is
already in `unique_solutions`. -/
def SolverWrapper.is_new_unique (s : SolverWrapper) (sol : List ℕ) : Bool :=
  ! (SolverWrapper.get_variants sol).any (fun v => s.unique_solutions.contains v)

/-- Translation of `SolverWrapper::is_safe`: scan the same row, the upper-left diagonal and
the lower-left diagonal of `(row, col)` through the already-filled columns.
The three scans translate the Rust loops
`for i in 0..col`, `for (i, j) in (0..row).rev().zip((0..col).rev())` and
`for (i, j) in (row + 1..n).zip((0..col).rev())`, where `zip` truncates to
the shorter range. -/
def SolverWrapper.is_safe (s : SolverWrapper) (row col : ℕ) : Bool :=
  (! (List.range col).any fun i => cell s.board row i == 1)
  && (! (List.range (min row col)).any fun k =>
        cell s.board (row - 1 - k) (col - 1 - k) == 1)
  && (! (List.range (min (s.n - (row + 1)) col)).any fun k =>
        cell s.board (row + 1 + k) (col - 1 - k) == 1)

/-- One coordinate piece of the solution string: file letter `'a' + c` and
rank `r + 1`, as in `format!("{}{}", file, rank)`. -/
def filePart (c r : ℕ) : String :=
  String.mk [Char.ofNat (97 + c)] ++ Nat.repr (r + 1)

/-- The `queen_rows` vector computed by `save_solution`: for each column the
first row holding a queen, `0` when the column is empty (the Rust vector is
zero-initialised and only overwritten on a find). -/
def SolverWrapper.queen_rows (s : SolverWrapper) : List ℕ :=
  (List.range s.n).map fun c =>
    (((List.range s.n).find? fun r => cell s.board r c == 1).getD 0)

/-- The `parts` list of `save_solution`: one coordinate string per column that
holds a queen. -/
def SolverWrapper.parts (s : SolverWrapper) : List String :=
  (List.range s.n).filterMap fun c =>
    ((List.range s.n).find? fun r => cell s.board r c == 1).map (filePart c)

/-- The joined coordinate string (Rust to `parts.join` with a comma). -/
def SolverWrapper.sol_str (s : SolverWrapper) : String :=
  String.intercalate ", " s.parts

/-- Translation of `SolverWrapper::save_solution`: snapshot the board, append the
row-permutation to the unique-solution set, and append the coordinate string
to the solutions log, prefixed with `"(Sym) "` when a symmetry variant was
already recorded. -/
def SolverWrapper.save_solution (s : SolverWrapper) : SolverWrapper :=
  { s with
    last_solution_board := some s.board
    unique_solutions := s.unique_solutions ++ [s.queen_rows]
    solutions := s.solutions ++
      [if s.is_new_unique s.queen_rows then s.sol_str else "(Sym) " ++ s.sol_str] }

/-- The tail of `SolverWrapper::step` after the backtracking block: record a
solution when all columns are filled, otherwise scan the current column from
the current row upward for the first safe row (the Rust `while` loop), placing
a queen on success and entering backtrack mode on failure (the `while` loop
leaves `row = n` in that case). -/
def SolverWrapper.stepForward (s : SolverWrapper) : SolverWrapper × Bool :=
  if s.n ≤ s.col then
    (let t := s.save_solution
     { t with backtracking := true }, true)
  else
    match (List.range' s.row (s.n - s.row)).find? (fun r => s.is_safe r s.col) with
    | some r =>
        ({ s with
            board := setCell s.board r s.col 1
            stack := s.stack ++ [(r, s.col)]
            col := s.col + 1
            row := 0 }, false)
    | none => ({ s with row := s.n, backtracking := true }, false)

/-- Translation of `SolverWrapper::step`.  Note that after a successful backtracking pop the
Rust control flow falls through into the forward-search code of the same call
(`stepForward`). -/
def SolverWrapper.step (s : SolverWrapper) : SolverWrapper × Bool :=
  if s.finished then (s, false)
  else if s.backtracking then
    if s.col = 0 ∧ s.n ≤ s.row then ({ s with finished := true }, false)
    else
      match s.stack.getLast? with
      | some p =>
          SolverWrapper.stepForward
            { s with
                board := setCell s.board p.1 (s.col - 1) 0
                stack := s.stack.dropLast
                col := s.col - 1
                row := p.1 + 1
                backtracking := false }
      | none => ({ s with finished := true }, false)
  else s.stepForward

/-- Translation of `SolverWrapper::restore_last_solution`. -/
def SolverWrapper.restore_last_solution (s : SolverWrapper) : SolverWrapper :=
  match s.last_solution_board with
  | some b => { s with board := b }
  | none => s

/-- Drive the engine: `s.run k` is the state after `k` calls to `step()`. -/
def SolverWrapper.run : SolverWrapper → ℕ → SolverWrapper
  | s, 0 => s
  | s, k + 1 => SolverWrapper.run s.step.1 k

/-! ## The slim simulation state

`FState` carries exactly the components of the solver state that drive the
search (the stack of placed rows, the cursor and the flags) plus the length of
the solutions log.  The board, the coordinate strings and the symmetry set are
dropped: under the engine invariant the board is determined by the stack, and
every recorded solution appends exactly one log entry.  `fastStep` mirrors
`SolverWrapper.step` branch for branch; the simulation theorem below makes the
correspondence precise.  It exists so that long runs can be evaluated
cheaply.  -/

structure FState where
  rows : List ℕ
  row : ℕ
  backtracking : Bool
  finished : Bool
  count : ℕ
deriving DecidableEq, Repr

/-- Mirror of `is_safe` over the stack row list: the cell probes of the three
scans are rewritten through the board/stack correspondence
`board[r][c] = 1 ↔ c < col ∧ rows[c] = r` (all probed cells have `c < col`). -/
def fastSafe (rows : List ℕ) (n row col : ℕ) : Bool :=
  (! (List.range col).any fun i => rows.getD i 0 == row)
  && (! (List.range (min row col)).any fun k =>
        rows.getD (col - 1 - k) 0 == row - 1 - k)
  && (! (List.range (min (n - (row + 1)) col)).any fun k =>
        rows.getD (col - 1 - k) 0 == row + 1 + k)

/-- Mirror of `stepForward` (the stack length stands in for `col`). -/
def fastStepForward (n : ℕ) (s : FState) : FState :=
  if n ≤ s.rows.length then
    { s with count := s.count + 1, backtracking := true }
  else
    match (List.range' s.row (n - s.row)).find?
        (fun r => fastSafe s.rows n r s.rows.length) with
    | some r => { s with rows := s.rows ++ [r], row := 0 }
    | none => { s with row := n, backtracking := true }

/-- Mirror of `step` (state part only). -/
def fastStep (n : ℕ) (s : FState) : FState :=
  if s.finished then s
  else if s.backtracking then
    if s.rows.length = 0 ∧ n ≤ s.row then { s with finished := true }
    else
      match s.rows.getLast? with
      | some r =>
          fastStepForward n
            { s with rows := s.rows.dropLast, row := r + 1, backtracking := false }
      | none => { s with finished := true }
  else fastStepForward n s

/-- Iterated `fastStep`. -/
def frun (n : ℕ) : FState → ℕ → FState
  | s, 0 => s
  | s, k + 1 => frun n (fastStep n s) k

/-- Abstraction of the full solver state to the slim state. -/
def absF (s : SolverWrapper) : FState where
  rows := s.stack.map Prod.fst
  row := s.row
  backtracking := s.backtracking
  finished := s.finished
  count := s.solutions.length

/-! ## Board well-formedness and basic cell lemmas -/

/-- The board is an `n × n` grid. -/
def BoardWf (n : ℕ) (b : List (List ℕ)) : Prop :=
  b.length = n ∧ ∀ rw ∈ b, rw.length = n

theorem getD_replicate {α : Type} (n : ℕ) (x : α) (i : ℕ) (d : α) :
    (List.replicate n x).getD i d = if i < n then x else d := by
  rw [List.getD_eq_getElem?_getD, List.getElem?_replicate]
  by_cases h : i < n <;> simp [h]

theorem getD_mem_of_lt {α : Type} (b : List α) (i : ℕ) (d : α)
    (h : i < b.length) : b.getD i d ∈ b := by
  rw [List.getD_eq_getElem?_getD, List.getElem?_eq_getElem h]
  exact List.getElem_mem h

theorem boardWf_new (n : ℕ) : BoardWf n (List.replicate n (List.replicate n 0)) := by
  refine ⟨List.length_replicate n _, fun rw hrw => ?_⟩
  rw [List.eq_of_mem_replicate hrw]
  exact List.length_replicate n _

theorem cell_new (n r c : ℕ) :
    cell (List.replicate n (List.replicate n 0)) r c = 0 := by
  unfold cell
  rw [getD_replicate]
  by_cases h : r < n
  · rw [if_pos h, getD_replicate]
    by_cases h' : c < n
    · rw [if_pos h']
    · rw [if_neg h']
  · rw [if_neg h]
    rfl

theorem rowLen_of_wf {n : ℕ} {b : List (List ℕ)} (hwf : BoardWf n b)
    {r : ℕ} (hr : r < n) : (b.getD r []).length = n :=
  hwf.2 _ (getD_mem_of_lt b r [] (hwf.1 ▸ hr))

theorem cell_lt_of_ne_zero {n : ℕ} {b : List (List ℕ)} (hwf : BoardWf n b)
    {r c : ℕ} (h : cell b r c ≠ 0) : r < n ∧ c < n := by
  unfold cell at h
  by_cases hr : r < n
  · refine ⟨hr, ?_⟩
    by_cases hc : c < n
    · exact hc
    · exfalso
      apply h
      have hlen : (b.getD r []).length = n := rowLen_of_wf hwf hr
      rw [List.getD_eq_getElem?_getD, List.getElem?_eq_none (by omega)]
      rfl
  · exfalso
    apply h
    have : b.getD r [] = [] := by
      rw [List.getD_eq_getElem?_getD, List.getElem?_eq_none (by rw [hwf.1]; omega)]
      rfl
    rw [this]
    rfl

theorem boardWf_setCell {n : ℕ} {b : List (List ℕ)} (hwf : BoardWf n b)
    (r c v : ℕ) : BoardWf n (setCell b r c v) := by
  by_cases hr : r < n
  · unfold setCell
    refine ⟨by rw [List.length_set]; exact hwf.1, fun rw hrw => ?_⟩
    rcases List.mem_or_eq_of_mem_set hrw with h | h
    · exact hwf.2 _ h
    · subst h
      rw [List.length_set]
      exact rowLen_of_wf hwf hr
  · have : setCell b r c v = b := by
      unfold setCell
      exact List.set_eq_of_length_le (by rw [hwf.1]; omega)
    rw [this]
    exact hwf

theorem cell_setCell {n : ℕ} {b : List (List ℕ)} (hwf : BoardWf n b)
    {r c : ℕ} (hr : r < n) (hc : c < n) (v : ℕ) (r' c' : ℕ) :
    cell (setCell b r c v) r' c' = if r' = r ∧ c' = c then v else cell b r' c' := by
  have hrlen : r < b.length := hwf.1 ▸ hr
  have hrowlen : (b.getD r []).length = n := rowLen_of_wf hwf hr
  simp only [List.getD_eq_getElem?_getD] at hrowlen
  simp only [cell, setCell, List.getD_eq_getElem?_getD]
  rw [List.getElem?_set]
  by_cases hrr : r = r'
  · rw [if_pos hrr, if_pos hrlen, Option.getD_some, List.getElem?_set]
    by_cases hcc : c = c'
    · rw [if_pos hcc, if_pos (by omega), Option.getD_some,
        if_pos ⟨hrr.symm, hcc.symm⟩]
    · rw [if_neg hcc, if_neg (by tauto)]
      subst hrr
      rfl
  · rw [if_neg hrr, if_neg (by tauto)]

/-! ## The engine invariant -/

/-- Queens at `(r1, c1)` and `(r2, c2)` attack neither by row nor by either
diagonal (columns are distinct in every use). -/
def NoTouch (r1 c1 r2 c2 : ℕ) : Prop :=
  r1 ≠ r2 ∧ r1 + c2 ≠ r2 + c1 ∧ r2 + c2 ≠ r1 + c1

/-- The coordinate string `save_solution` builds for a full board whose queen
in column `c` sits in row `qr[c]`. -/
def permString (n : ℕ) (qr : List ℕ) : String :=
  String.intercalate ", " ((List.range n).map fun c => filePart c (qr.getD c 0))

/-- Predicate stating `qr` is a full `n`-queens solution given as the row of each column. -/
def IsSolutionPerm (n : ℕ) (qr : List ℕ) : Prop :=
  qr.length = n ∧ (∀ r ∈ qr, r < n) ∧
    ∀ i j, i < j → j < n → NoTouch (qr.getD i 0) i (qr.getD j 0) j

/-- Predicate stating `b` is the `n × n` board holding exactly the queens of `qr`. -/
def BoardMatches (n : ℕ) (qr : List ℕ) (b : List (List ℕ)) : Prop :=
  BoardWf n b ∧ ∀ r c, r < n → c < n →
    cell b r c = if qr.getD c 0 = r then 1 else 0

/-- Relation between the snapshot, the solutions log and the unique-solution
set: either nothing has been recorded yet, or the snapshot is a full solution
board matching the last recorded row-permutation and log entry. -/
def SnapInv (s : SolverWrapper) : Prop :=
  match s.last_solution_board with
  | none => s.solutions = [] ∧ s.unique_solutions = []
  | some b => ∃ qr, IsSolutionPerm s.n qr ∧ BoardMatches s.n qr b ∧
      s.unique_solutions.getLast? = some qr ∧
      (s.solutions.getLast? = some (permString s.n qr) ∨
       s.solutions.getLast? = some ("(Sym) " ++ permString s.n qr))

/-- The engine invariant, maintained by `step` between calls: the board is a
well-formed grid whose queens are exactly the stack entries, one per column
below the cursor, pairwise non-attacking; the stack entry for column `i` is
`(row, i)`; and the snapshot bookkeeping of `SnapInv` holds. -/
structure EngineInv (s : SolverWrapper) : Prop where
  wf : BoardWf s.n s.board
  stackLen : s.stack.length = s.col
  colLe : s.col ≤ s.n
  rowLe : s.row ≤ s.n
  stackIdx : ∀ i, i < s.stack.length → (s.stack.getD i (0, 0)).2 = i
  rowsLt : ∀ i, i < s.stack.length → (s.stack.map Prod.fst).getD i 0 < s.n
  cellEq : ∀ r c, r < s.n → c < s.n →
    cell s.board r c =
      if c < s.col ∧ (s.stack.map Prod.fst).getD c 0 = r then 1 else 0
  noatt : ∀ i j, i < j → j < s.stack.length →
    NoTouch ((s.stack.map Prod.fst).getD i 0) i ((s.stack.map Prod.fst).getD j 0) j
  snap : SnapInv s

theorem inv_new (n : ℕ) : EngineInv (SolverWrapper.new n) := by
  refine ⟨boardWf_new n, rfl, Nat.zero_le n, Nat.zero_le n,
    fun i hi => absurd hi (by simp [SolverWrapper.new]),
    fun i hi => absurd hi (by simp [SolverWrapper.new]),
    fun r c hr hc => ?_,
    fun i j hij hj => absurd hj (by simp [SolverWrapper.new]),
    ⟨rfl, rfl⟩⟩
  rw [show (SolverWrapper.new n).board = List.replicate n (List.replicate n 0) from rfl,
    cell_new]
  simp [SolverWrapper.new]

/-! ## Characterization of `is_safe` -/

theorem is_safe_scan (s : SolverWrapper) (row col : ℕ) :
    s.is_safe row col = true ↔
      (∀ i, i < col → cell s.board row i ≠ 1) ∧
      (∀ k, k < min row col → cell s.board (row - 1 - k) (col - 1 - k) ≠ 1) ∧
      (∀ k, k < min (s.n - (row + 1)) col →
        cell s.board (row + 1 + k) (col - 1 - k) ≠ 1) := by
  simp only [SolverWrapper.is_safe, Bool.and_eq_true, Bool.not_eq_true',
    List.any_eq_false, List.mem_range, beq_iff_eq, and_assoc]

/-- Under well-formedness, when every queen sits in a column `< col`,
`is_safe row col` answers exactly "no queen on the board attacks `(row, col)`
by row or by either diagonal". -/
theorem is_safe_iff (s : SolverWrapper) (row col : ℕ)
    (hwf : BoardWf s.n s.board) (hrow : row < s.n)
    (hq : ∀ r c, cell s.board r c = 1 → c < col) :
    s.is_safe row col = true ↔
      ∀ r c, cell s.board r c = 1 → NoTouch r c row col := by
  rw [is_safe_scan]
  constructor
  · rintro ⟨h1, h2, h3⟩ r c hcell
    have hb : r < s.n ∧ c < s.n := cell_lt_of_ne_zero hwf (by omega)
    have hcol : c < col := hq r c hcell
    refine ⟨?_, ?_, ?_⟩
    · intro hre
      exact h1 c hcol (hre ▸ hcell)
    · intro hdiag
      have hk : col - 1 - (col - 1 - c) = c := by omega
      have hr : row - 1 - (col - 1 - c) = r := by omega
      have := h2 (col - 1 - c) (by omega)
      rw [hk, hr] at this
      exact this hcell
    · intro hdiag
      have hk : col - 1 - (col - 1 - c) = c := by omega
      have hr : row + 1 + (col - 1 - c) = r := by omega
      have := h3 (col - 1 - c) (by omega)
      rw [hk, hr] at this
      exact this hcell
  · intro hno
    refine ⟨?_, ?_, ?_⟩
    · intro i hi hcell
      exact (hno row i hcell).1 rfl
    · intro k hk hcell
      have := (hno (row - 1 - k) (col - 1 - k) hcell).2.1
      omega
    · intro k hk hcell
      have hb := cell_lt_of_ne_zero hwf (r := row + 1 + k) (c := col - 1 - k) (by omega)
      have := (hno (row + 1 + k) (col - 1 - k) hcell).2.2
      omega

/-! ## Small list utilities -/

theorem getD_append_lt {α : Type} (l l' : List α) (i : ℕ) (d : α)
    (h : i < l.length) : (l ++ l').getD i d = l.getD i d := by
  rw [List.getD_eq_getElem?_getD, List.getElem?_append_left h,
    List.getD_eq_getElem?_getD]

theorem getD_append_len {α : Type} (l : List α) (x : α) (d : α) :
    (l ++ [x]).getD l.length d = x := by
  rw [List.getD_eq_getElem?_getD, List.getElem?_append_right (Nat.le_refl _)]
  simp

theorem getD_dropLast {α : Type} (l : List α) (i : ℕ) (d : α)
    (h : i < l.length - 1) : l.dropLast.getD i d = l.getD i d := by
  rw [List.getD_eq_getElem?_getD, List.getD_eq_getElem?_getD,
    List.getElem?_eq_getElem (by rw [List.length_dropLast]; omega),
    List.getElem?_eq_getElem (by omega)]
  simp [List.getElem_dropLast]

theorem getD_map_fst (l : List (ℕ × ℕ)) (i : ℕ) (h : i < l.length) :
    (l.map Prod.fst).getD i 0 = (l.getD i (0, 0)).1 := by
  rw [List.getD_eq_getElem?_getD, List.getD_eq_getElem?_getD,
    List.getElem?_eq_getElem (by rw [List.length_map]; exact h),
    List.getElem?_eq_getElem h]
  simp

theorem getD_map_range {α : Type} (f : ℕ → α) (n c : ℕ) (d : α) (h : c < n) :
    ((List.range n).map f).getD c d = f c := by
  rw [List.getD_eq_getElem?_getD,
    List.getElem?_eq_getElem (by rw [List.length_map, List.length_range]; exact h)]
  simp

theorem list_any_congr {α : Type} {p q : α → Bool} :
    ∀ l : List α, (∀ a ∈ l, p a = q a) → l.any p = l.any q
  | [], _ => rfl
  | a :: l, h => by
      simp only [List.any_cons, h a (List.mem_cons_self a l),
        list_any_congr l (fun b hb => h b (List.mem_cons_of_mem a hb))]

theorem list_find?_congr {α : Type} {p q : α → Bool} :
    ∀ l : List α, (∀ a ∈ l, p a = q a) → l.find? p = l.find? q
  | [], _ => rfl
  | a :: l, h => by
      rw [List.find?_cons, List.find?_cons, h a (List.mem_cons_self a l),
        list_find?_congr l (fun b hb => h b (List.mem_cons_of_mem a hb))]

theorem list_filterMap_eq_map {α β : Type} (g : α → β) :
    ∀ (l : List α) (f : α → Option β), (∀ a ∈ l, f a = some (g a)) →
      l.filterMap f = l.map g
  | [], _, _ => rfl
  | a :: l, f, h => by
      rw [List.filterMap_cons, h a (List.mem_cons_self a l), List.map_cons,
        list_filterMap_eq_map g l f (fun b hb => h b (List.mem_cons_of_mem a hb))]

theorem find?_range_unique (p : ℕ → Bool) (n r0 : ℕ) (h0 : r0 < n)
    (hp : ∀ r, r < n → (p r = true ↔ r = r0)) :
    (List.range n).find? p = some r0 := by
  cases hfind : (List.range n).find? p with
  | none =>
      exfalso
      rw [List.find?_eq_none] at hfind
      exact hfind r0 (List.mem_range.mpr h0) ((hp r0 h0).mpr rfl)
  | some x =>
      have hx : x ∈ List.range n := List.mem_of_find?_eq_some hfind
      have := (hp x (List.mem_range.mp hx)).mp (List.find?_some hfind)
      rw [this]

theorem getLast?_map_fst (l : List (ℕ × ℕ)) :
    (l.map Prod.fst).getLast? = l.getLast?.map Prod.fst := by
  exact List.getLast?_map Prod.fst l

/-- Congruence: `SnapInv` depends only on these four fields. -/
theorem snapInv_congr {s s' : SolverWrapper} (hn : s'.n = s.n)
    (hsol : s'.solutions = s.solutions)
    (huniq : s'.unique_solutions = s.unique_solutions)
    (hlast : s'.last_solution_board = s.last_solution_board)
    (h : SnapInv s) : SnapInv s' := by
  unfold SnapInv at h ⊢
  rw [hn, hsol, huniq, hlast]
  exact h

/-! ## Invariant preservation -/

theorem find_col_eq (s : SolverWrapper) (h : EngineInv s) (c : ℕ) (hc : c < s.col) :
    (List.range s.n).find? (fun r => cell s.board r c == 1) =
      some ((s.stack.map Prod.fst).getD c 0) := by
  have hcn : c < s.n := lt_of_lt_of_le hc h.colLe
  have hr0 : (s.stack.map Prod.fst).getD c 0 < s.n := h.rowsLt c (h.stackLen ▸ hc)
  apply find?_range_unique _ _ _ hr0
  intro r hrn
  simp only [beq_iff_eq]
  rw [h.cellEq r c hrn hcn]
  by_cases hx : (s.stack.map Prod.fst).getD c 0 = r
  · rw [if_pos ⟨hc, hx⟩]
    exact iff_of_true rfl hx.symm
  · rw [if_neg (by tauto)]
    exact iff_of_false (by omega) (fun he => hx he.symm)

theorem queen_rows_getD (s : SolverWrapper) (h : EngineInv s) (hcol : s.col = s.n)
    (c : ℕ) (hc : c < s.n) :
    s.queen_rows.getD c 0 = (s.stack.map Prod.fst).getD c 0 := by
  unfold SolverWrapper.queen_rows
  rw [getD_map_range _ _ _ _ hc, find_col_eq s h c (by omega)]
  rfl

theorem queen_rows_length (s : SolverWrapper) : s.queen_rows.length = s.n := by
  unfold SolverWrapper.queen_rows
  rw [List.length_map, List.length_range]

theorem queen_rows_mem (s : SolverWrapper) (h : EngineInv s) (hcol : s.col = s.n) :
    ∀ r ∈ s.queen_rows, r < s.n := by
  intro r hr
  unfold SolverWrapper.queen_rows at hr
  rcases List.mem_map.mp hr with ⟨c, hc, hfc⟩
  have hcn : c < s.n := List.mem_range.mp hc
  rw [find_col_eq s h c (by omega)] at hfc
  rw [← hfc]
  exact h.rowsLt c (by rw [h.stackLen]; omega)

theorem parts_eq (s : SolverWrapper) (h : EngineInv s) (hcol : s.col = s.n) :
    s.parts = (List.range s.n).map fun c => filePart c (s.queen_rows.getD c 0) := by
  unfold SolverWrapper.parts
  apply list_filterMap_eq_map
  intro c hc
  have hcn : c < s.n := List.mem_range.mp hc
  rw [find_col_eq s h c (by omega), queen_rows_getD s h hcol c hcn]
  rfl

theorem sol_str_eq (s : SolverWrapper) (h : EngineInv s) (hcol : s.col = s.n) :
    s.sol_str = permString s.n s.queen_rows := by
  unfold SolverWrapper.sol_str permString
  rw [parts_eq s h hcol]

theorem queens_lt_col (s : SolverWrapper) (h : EngineInv s) :
    ∀ r c, cell s.board r c = 1 → c < s.col := by
  intro r c hcell
  have hb := cell_lt_of_ne_zero h.wf (r := r) (c := c) (by omega)
  by_contra hcon
  rw [h.cellEq r c hb.1 hb.2] at hcell
  rw [if_neg (by tauto)] at hcell
  omega

theorem snapInv_save (s : SolverWrapper) (h : EngineInv s) (hc : s.col = s.n) :
    ∃ qr, IsSolutionPerm s.n qr ∧ BoardMatches s.n qr s.board ∧
      (s.unique_solutions ++ [s.queen_rows]).getLast? = some qr ∧
      ((s.solutions ++
          [if s.is_new_unique s.queen_rows then s.sol_str
           else "(Sym) " ++ s.sol_str]).getLast? = some (permString s.n qr) ∨
       (s.solutions ++
          [if s.is_new_unique s.queen_rows then s.sol_str
           else "(Sym) " ++ s.sol_str]).getLast? =
         some ("(Sym) " ++ permString s.n qr)) := by
  refine ⟨s.queen_rows, ⟨queen_rows_length s, queen_rows_mem s h hc, ?_⟩,
    ⟨h.wf, ?_⟩, ?_, ?_⟩
  · intro i j hij hj
    rw [queen_rows_getD s h hc i (by omega), queen_rows_getD s h hc j hj]
    exact h.noatt i j hij (by rw [h.stackLen]; omega)
  · intro r c hr hcn
    rw [h.cellEq r c hr hcn, queen_rows_getD s h hc c hcn]
    by_cases hx : (s.stack.map Prod.fst).getD c 0 = r
    · rw [if_pos ⟨by omega, hx⟩, if_pos hx]
    · rw [if_neg (by tauto), if_neg hx]
  · rw [List.getLast?_concat]
  · rw [List.getLast?_concat]
    by_cases hnew : s.is_new_unique s.queen_rows
    · left
      rw [if_pos hnew, sol_str_eq s h hc]
    · right
      rw [if_neg hnew, sol_str_eq s h hc]

theorem inv_stepForward (s : SolverWrapper) (h : EngineInv s) :
    EngineInv s.stepForward.1 := by
  unfold SolverWrapper.stepForward
  by_cases hcol : s.n ≤ s.col
  · rw [if_pos hcol]
    have hc : s.col = s.n := le_antisymm h.colLe hcol
    exact ⟨h.wf, h.stackLen, h.colLe, h.rowLe, h.stackIdx, h.rowsLt, h.cellEq,
      h.noatt, snapInv_save s h hc⟩
  · rw [if_neg hcol]
    have hcoln : s.col < s.n := by omega
    cases hfind : (List.range' s.row (s.n - s.row)).find? (fun r => s.is_safe r s.col) with
    | none =>
        refine ⟨h.wf, h.stackLen, h.colLe, le_refl _, h.stackIdx, h.rowsLt,
          h.cellEq, h.noatt, snapInv_congr rfl rfl rfl rfl h.snap⟩
    | some r =>
        have hrn : r < s.n := by
          have := List.mem_range'_1.mp (List.mem_of_find?_eq_some hfind)
          have := h.rowLe
          omega
        have hsafe : s.is_safe r s.col = true := by
          have hx := List.find?_some hfind
          exact hx
        have hno : ∀ r' c', cell s.board r' c' = 1 → NoTouch r' c' r s.col :=
          (is_safe_iff s r s.col h.wf hrn (queens_lt_col s h)).mp hsafe
        have hlenrows : (s.stack.map Prod.fst).length = s.col := by
          rw [List.length_map]; exact h.stackLen
        refine ⟨boardWf_setCell h.wf r s.col 1, ?_,
          show s.col + 1 ≤ s.n by omega, show (0 : ℕ) ≤ s.n from Nat.zero_le _,
          ?_, ?_, ?_, ?_, snapInv_congr rfl rfl rfl rfl h.snap⟩
        · show (s.stack ++ [(r, s.col)]).length = s.col + 1
          rw [List.length_append, h.stackLen]
          rfl
        · show ∀ i, i < (s.stack ++ [(r, s.col)]).length →
              ((s.stack ++ [(r, s.col)]).getD i (0, 0)).2 = i
          intro i hi
          rw [List.length_append] at hi
          by_cases hilt : i < s.stack.length
          · rw [getD_append_lt _ _ _ _ hilt]
            exact h.stackIdx i hilt
          · have hieq : i = s.stack.length := by
              have : (( [(r, s.col)] : List (ℕ × ℕ))).length = 1 := rfl
              omega
            subst hieq
            rw [getD_append_len]
            exact h.stackLen.symm
        · show ∀ i, i < (s.stack ++ [(r, s.col)]).length →
              ((s.stack ++ [(r, s.col)]).map Prod.fst).getD i 0 < s.n
          intro i hi
          rw [List.length_append] at hi
          rw [List.map_append]
          by_cases hilt : i < s.stack.length
          · rw [getD_append_lt _ _ _ _ (by rw [List.length_map]; exact hilt)]
            exact h.rowsLt i hilt
          · have hieq : i = s.stack.length := by
              have : (( [(r, s.col)] : List (ℕ × ℕ))).length = 1 := rfl
              omega
            subst hieq
            rw [show s.stack.length = (s.stack.map Prod.fst).length from
              (List.length_map _ _).symm]
            rw [show ([(r, s.col)].map Prod.fst : List ℕ) = [r] from rfl]
            rw [getD_append_len]
            exact hrn
        · show ∀ r' c', r' < s.n → c' < s.n →
            cell (setCell s.board r s.col 1) r' c' =
              if c' < s.col + 1 ∧
                  ((s.stack ++ [(r, s.col)]).map Prod.fst).getD c' 0 = r' then 1
              else 0
          intro r' c' hr' hc'
          rw [cell_setCell h.wf hrn hcoln 1 r' c', List.map_append]
          rw [show ([(r, s.col)].map Prod.fst : List ℕ) = [r] from rfl]
          by_cases hcc : c' = s.col
          · have hgetD : ((s.stack.map Prod.fst) ++ [r]).getD c' 0 = r := by
              rw [hcc, show s.col = (s.stack.map Prod.fst).length from by
                rw [List.length_map, h.stackLen]]
              exact getD_append_len _ _ _
            rw [hgetD]
            by_cases hrr : r' = r
            · rw [if_pos ⟨hrr, hcc⟩, if_pos ⟨by omega, hrr.symm⟩]
            · rw [if_neg (by tauto), h.cellEq r' c' hr' hc',
                if_neg (by omega), if_neg (by
                  rintro ⟨-, hx⟩
                  exact hrr hx.symm)]
          · rw [if_neg (by tauto), h.cellEq r' c' hr' hc']
            by_cases hclt : c' < s.col
            · rw [getD_append_lt _ _ _ _ (by
                rw [List.length_map, h.stackLen]
                omega)]
              by_cases hx : (s.stack.map Prod.fst).getD c' 0 = r'
              · rw [if_pos ⟨hclt, hx⟩, if_pos ⟨by omega, hx⟩]
              · rw [if_neg (by tauto), if_neg (by tauto)]
            · rw [if_neg (by omega), if_neg (by omega)]
        · show ∀ i j, i < j → j < (s.stack ++ [(r, s.col)]).length →
              NoTouch (((s.stack ++ [(r, s.col)]).map Prod.fst).getD i 0) i
                (((s.stack ++ [(r, s.col)]).map Prod.fst).getD j 0) j
          intro i j hij hj
          rw [List.length_append] at hj
          rw [List.map_append]
          rw [show ([(r, s.col)].map Prod.fst : List ℕ) = [r] from rfl]
          by_cases hjlt : j < s.stack.length
          · rw [getD_append_lt _ _ _ _ (by rw [List.length_map]; omega),
              getD_append_lt _ _ _ _ (by rw [List.length_map]; omega)]
            exact h.noatt i j hij hjlt
          · have hje : j = s.stack.length := by
              have : (( [(r, s.col)] : List (ℕ × ℕ))).length = 1 := rfl
              omega
            subst hje
            have hilt : i < s.stack.length := hij
            rw [getD_append_lt _ _ _ _ (by rw [List.length_map]; omega)]
            rw [show s.stack.length = (s.stack.map Prod.fst).length from
              (List.length_map _ _).symm, getD_append_len]
            have hcell : cell s.board ((s.stack.map Prod.fst).getD i 0) i = 1 := by
              have hsl := h.stackLen
              have hcl := h.colLe
              rw [h.cellEq _ i (h.rowsLt i hilt) (by omega),
                if_pos ⟨by omega, rfl⟩]
            have hx := hno _ i hcell
            rw [hlenrows]
            exact hx

theorem inv_pop (s : SolverWrapper) (h : EngineInv s) (p : ℕ × ℕ)
    (hlast : s.stack.getLast? = some p) :
    EngineInv
      { s with
          board := setCell s.board p.1 (s.col - 1) 0
          stack := s.stack.dropLast
          col := s.col - 1
          row := p.1 + 1
          backtracking := false } := by
  have hne : s.stack ≠ [] := by
    intro he
    rw [he] at hlast
    exact Option.noConfusion hlast
  have hlen1 : 1 ≤ s.stack.length := List.length_pos.mpr hne
  have hcol1 : 1 ≤ s.col := h.stackLen ▸ hlen1
  have hp : s.stack.getD (s.stack.length - 1) (0, 0) = p := by
    rw [List.getLast?_eq_getElem?] at hlast
    rw [List.getD_eq_getElem?_getD, hlast]
    rfl
  have hp2 : p.2 = s.col - 1 := by
    have := h.stackIdx (s.stack.length - 1) (by omega)
    rw [hp] at this
    rw [this, h.stackLen]
  have hrows : (s.stack.map Prod.fst).getD (s.stack.length - 1) 0 = p.1 := by
    rw [getD_map_fst _ _ (by omega), hp]
  have hp1 : p.1 < s.n := by
    have := h.rowsLt (s.stack.length - 1) (by omega)
    rw [hrows] at this
    exact this
  have hcoln : s.col - 1 < s.n := by
    have := h.colLe
    omega
  have hmapdl : (s.stack.dropLast.map Prod.fst) = (s.stack.map Prod.fst).dropLast :=
    by rw [List.map_dropLast]
  have hmaplen : (s.stack.map Prod.fst).length = s.stack.length := List.length_map _ _
  have hsl := h.stackLen
  have hcle := h.colLe
  refine ⟨boardWf_setCell h.wf p.1 (s.col - 1) 0,
    show s.stack.dropLast.length = s.col - 1 by
      rw [List.length_dropLast, h.stackLen],
    show s.col - 1 ≤ s.n by omega,
    show p.1 + 1 ≤ s.n by omega,
    ?_, ?_, ?_, ?_, snapInv_congr rfl rfl rfl rfl h.snap⟩
  · show ∀ i, i < s.stack.dropLast.length → (s.stack.dropLast.getD i (0, 0)).2 = i
    intro i hi
    rw [List.length_dropLast] at hi
    rw [getD_dropLast _ _ _ hi]
    exact h.stackIdx i (by omega)
  · show ∀ i, i < s.stack.dropLast.length →
      (s.stack.dropLast.map Prod.fst).getD i 0 < s.n
    intro i hi
    rw [List.length_dropLast] at hi
    rw [hmapdl, getD_dropLast _ _ _ (by omega)]
    exact h.rowsLt i (by omega)
  · show ∀ r' c', r' < s.n → c' < s.n →
      cell (setCell s.board p.1 (s.col - 1) 0) r' c' =
        if c' < s.col - 1 ∧ (s.stack.dropLast.map Prod.fst).getD c' 0 = r' then 1
        else 0
    intro r' c' hr' hc'
    rw [cell_setCell h.wf hp1 hcoln 0 r' c', hmapdl]
    by_cases hdel : r' = p.1 ∧ c' = s.col - 1
    · rw [if_pos hdel, if_neg (by omega)]
    · rw [if_neg hdel, h.cellEq r' c' hr' hc']
      by_cases hclt : c' < s.col - 1
      · rw [getD_dropLast _ _ _ (by omega)]
        by_cases hx : (s.stack.map Prod.fst).getD c' 0 = r'
        · rw [if_pos ⟨by omega, hx⟩, if_pos ⟨hclt, hx⟩]
        · rw [if_neg (by tauto), if_neg (by tauto)]
      · by_cases hcc : c' = s.col - 1
        · have hgd : (s.stack.map Prod.fst).getD c' 0 = p.1 := by
            rw [show c' = s.stack.length - 1 from by omega]
            exact hrows
          rw [if_neg (by
              rintro ⟨-, hx⟩
              exact hdel ⟨by omega, hcc⟩),
            if_neg (by omega)]
        · rw [if_neg (by omega), if_neg (by omega)]
  · show ∀ i j, i < j → j < s.stack.dropLast.length →
      NoTouch ((s.stack.dropLast.map Prod.fst).getD i 0) i
        ((s.stack.dropLast.map Prod.fst).getD j 0) j
    intro i j hij hj
    rw [List.length_dropLast] at hj
    rw [hmapdl, getD_dropLast _ _ _ (by omega), getD_dropLast _ _ _ (by omega)]
    exact h.noatt i j hij (by omega)

theorem inv_step (s : SolverWrapper) (h : EngineInv s) : EngineInv s.step.1 := by
  unfold SolverWrapper.step
  by_cases hfin : s.finished = true
  · rw [if_pos hfin]
    exact h
  · rw [if_neg hfin]
    by_cases hb : s.backtracking = true
    · rw [if_pos hb]
      by_cases hcr : s.col = 0 ∧ s.n ≤ s.row
      · rw [if_pos hcr]
        exact ⟨h.wf, h.stackLen, h.colLe, h.rowLe, h.stackIdx, h.rowsLt,
          h.cellEq, h.noatt, snapInv_congr rfl rfl rfl rfl h.snap⟩
      · rw [if_neg hcr]
        cases hlast : s.stack.getLast? with
        | none =>
            exact ⟨h.wf, h.stackLen, h.colLe, h.rowLe, h.stackIdx, h.rowsLt,
              h.cellEq, h.noatt, snapInv_congr rfl rfl rfl rfl h.snap⟩
        | some p => exact inv_stepForward _ (inv_pop s h p hlast)
    · rw [if_neg hb]
      exact inv_stepForward s h

theorem inv_run (s : SolverWrapper) (h : EngineInv s) :
    ∀ k, EngineInv (s.run k) := by
  intro k
  induction k generalizing s with
  | zero => exact h
  | succ k ih =>
      show EngineInv (SolverWrapper.run s.step.1 k)
      exact ih _ (inv_step s h)

theorem inv_reach (n k : ℕ) : EngineInv ((SolverWrapper.new n).run k) :=
  inv_run _ (inv_new n) k

/-! ## Simulation by the slim state -/

theorem fastSafe_eq (s : SolverWrapper) (h : EngineInv s) (r : ℕ) (hr : r < s.n) :
    s.is_safe r s.col = fastSafe (s.stack.map Prod.fst) s.n r s.col := by
  unfold SolverWrapper.is_safe fastSafe
  have hcle := h.colLe
  have e1 : ((List.range s.col).any fun i => cell s.board r i == 1)
      = ((List.range s.col).any fun i => (s.stack.map Prod.fst).getD i 0 == r) := by
    apply list_any_congr
    intro i hi
    have hi' : i < s.col := List.mem_range.mp hi
    have hin : i < s.n := by omega
    rw [h.cellEq r i hr hin]
    by_cases hx : (s.stack.map Prod.fst).getD i 0 = r
    · simp [hi', hx]
    · simp [hi', hx]
  have e2 : ((List.range (min r s.col)).any fun k =>
        cell s.board (r - 1 - k) (s.col - 1 - k) == 1)
      = ((List.range (min r s.col)).any fun k =>
        (s.stack.map Prod.fst).getD (s.col - 1 - k) 0 == r - 1 - k) := by
    apply list_any_congr
    intro k hk
    have hk' : k < min r s.col := List.mem_range.mp hk
    rw [h.cellEq (r - 1 - k) (s.col - 1 - k) (by omega) (by omega)]
    by_cases hx : (s.stack.map Prod.fst).getD (s.col - 1 - k) 0 = r - 1 - k
    · simp [hx]
      omega
    · simp [hx]
      omega
  have e3 : ((List.range (min (s.n - (r + 1)) s.col)).any fun k =>
        cell s.board (r + 1 + k) (s.col - 1 - k) == 1)
      = ((List.range (min (s.n - (r + 1)) s.col)).any fun k =>
        (s.stack.map Prod.fst).getD (s.col - 1 - k) 0 == r + 1 + k) := by
    apply list_any_congr
    intro k hk
    have hk' : k < min (s.n - (r + 1)) s.col := List.mem_range.mp hk
    rw [h.cellEq (r + 1 + k) (s.col - 1 - k) (by omega) (by omega)]
    by_cases hx : (s.stack.map Prod.fst).getD (s.col - 1 - k) 0 = r + 1 + k
    · simp [hx]
      omega
    · simp [hx]
      omega
  rw [e1, e2, e3]

theorem stepForward_sim (s : SolverWrapper) (h : EngineInv s) :
    absF s.stepForward.1 = fastStepForward s.n (absF s) := by
  have hlenrows : (s.stack.map Prod.fst).length = s.col := by
    rw [List.length_map, h.stackLen]
  unfold SolverWrapper.stepForward fastStepForward absF
  dsimp only
  rw [hlenrows]
  by_cases hcol : s.n ≤ s.col
  · rw [if_pos hcol, if_pos hcol]
    dsimp only [SolverWrapper.save_solution]
    rw [List.length_append]
    rfl
  · rw [if_neg hcol, if_neg hcol]
    have hpred : (List.range' s.row (s.n - s.row)).find?
          (fun r => fastSafe (s.stack.map Prod.fst) s.n r s.col)
        = (List.range' s.row (s.n - s.row)).find? (fun r => s.is_safe r s.col) := by
      apply list_find?_congr
      intro a ha
      have han : a < s.n := by
        have h1 := List.mem_range'_1.mp ha
        have h2 := h.rowLe
        omega
      rw [fastSafe_eq s h a han]
    rw [hpred]
    cases hf : (List.range' s.row (s.n - s.row)).find? (fun r => s.is_safe r s.col) with
    | some r =>
        dsimp only
        rw [List.map_append]
        rfl
    | none => rfl

theorem n_stepForward (s : SolverWrapper) : s.stepForward.1.n = s.n := by
  unfold SolverWrapper.stepForward
  by_cases hcol : s.n ≤ s.col
  · rw [if_pos hcol]
    rfl
  · rw [if_neg hcol]
    cases (List.range' s.row (s.n - s.row)).find? (fun r => s.is_safe r s.col) with
    | some r => rfl
    | none => rfl

theorem n_step (s : SolverWrapper) : s.step.1.n = s.n := by
  unfold SolverWrapper.step
  by_cases hfin : s.finished = true
  · rw [if_pos hfin]
  · rw [if_neg hfin]
    by_cases hb : s.backtracking = true
    · rw [if_pos hb]
      by_cases hcr : s.col = 0 ∧ s.n ≤ s.row
      · rw [if_pos hcr]
      · rw [if_neg hcr]
        cases s.stack.getLast? with
        | some p => exact n_stepForward _
        | none => rfl
    · rw [if_neg hb]
      exact n_stepForward s

theorem step_sim (s : SolverWrapper) (h : EngineInv s) :
    absF s.step.1 = fastStep s.n (absF s) := by
  have hlenrows : (s.stack.map Prod.fst).length = s.col := by
    rw [List.length_map, h.stackLen]
  unfold SolverWrapper.step fastStep
  dsimp only [absF]
  rw [hlenrows]
  by_cases hfin : s.finished = true
  · rw [if_pos hfin, if_pos hfin]
  · rw [if_neg hfin, if_neg hfin]
    by_cases hb : s.backtracking = true
    · rw [if_pos hb, if_pos hb]
      by_cases hcr : s.col = 0 ∧ s.n ≤ s.row
      · rw [if_pos hcr, if_pos hcr]
      · rw [if_neg hcr, if_neg hcr]
        rw [getLast?_map_fst]
        cases hlast : s.stack.getLast? with
        | none => rfl
        | some p =>
            dsimp only [Option.map]
            have hstep := stepForward_sim _ (inv_pop s h p hlast)
            dsimp only [absF] at hstep
            rw [hstep]
            rw [List.map_dropLast]
    · rw [if_neg hb, if_neg hb]
      exact stepForward_sim s h

theorem run_sim (s : SolverWrapper) (h : EngineInv s) :
    ∀ k, absF (s.run k) = frun s.n (absF s) k := by
  intro k
  induction k generalizing s with
  | zero => rfl
  | succ k ih =>
      show absF (SolverWrapper.run s.step.1 k) = frun s.n (fastStep s.n (absF s)) k
      rw [← step_sim s h, ← n_step s]
      exact ih s.step.1 (inv_step s h)

/-! ## Termination measure

The search position is encoded as the base-`(n+2)` number whose digits are the
placed rows (plus one) followed by the cursor row (plus one), padded to fixed
width `n+1`; each non-terminating `step` strictly increases
`2 * position + backtracking-bit`, and the quantity is bounded, so the search
finishes within a computable bound. -/

def hornerVal (B : ℕ) (w : List ℕ) : ℕ :=
  w.foldl (fun a d => a * B + (d + 1)) 0

def wordOf (s : SolverWrapper) : List ℕ :=
  (s.stack.map Prod.fst) ++ [s.row]

def measV (s : SolverWrapper) : ℕ :=
  hornerVal (s.n + 2) (wordOf s) * (s.n + 2) ^ (s.n + 1 - (wordOf s).length)

def measT (s : SolverWrapper) : ℕ :=
  2 * measV s + (if s.backtracking then 1 else 0)

theorem horner_from (B : ℕ) :
    ∀ (w : List ℕ) (a : ℕ),
      w.foldl (fun a d => a * B + (d + 1)) a
        = a * B ^ w.length + hornerVal B w
  | [], a => by simp [hornerVal]
  | d :: w, a => by
      show w.foldl _ (a * B + (d + 1)) = a * B ^ (d :: w).length + hornerVal B (d :: w)
      rw [horner_from B w (a * B + (d + 1))]
      show _ = _ + hornerVal B (d :: w)
      have : hornerVal B (d :: w) = w.foldl (fun a d => a * B + (d + 1)) (0 * B + (d + 1)) := rfl
      rw [this, horner_from B w (0 * B + (d + 1)), List.length_cons, pow_succ]
      ring

theorem horner_snoc (B : ℕ) (w : List ℕ) (d : ℕ) :
    hornerVal B (w ++ [d]) = hornerVal B w * B + (d + 1) := by
  unfold hornerVal
  rw [List.foldl_append]
  show (w.foldl _ 0) * B + (d + 1) = _
  rfl

theorem horner_lt (B : ℕ) (hB : 0 < B) :
    ∀ w : List ℕ, (∀ d ∈ w, d + 1 < B) → hornerVal B w < B ^ w.length := by
  intro w
  induction w using List.reverseRecOn with
  | nil => intro _; simp [hornerVal]
  | append_singleton w d ih =>
      intro hd
      have h1 : hornerVal B w < B ^ w.length :=
        ih fun e he => hd e (List.mem_append_left _ he)
      have h2 : d + 1 < B := hd d (List.mem_append_right _ (List.mem_singleton_self d))
      rw [horner_snoc, List.length_append,
        show ([d] : List ℕ).length = 1 from rfl]
      calc hornerVal B w * B + (d + 1) < hornerVal B w * B + B := by omega
        _ = (hornerVal B w + 1) * B := by ring
        _ ≤ B ^ w.length * B := Nat.mul_le_mul_right _ (by omega)
        _ = B ^ (w.length + 1) := (pow_succ B w.length).symm

theorem measV_place (s : SolverWrapper) (h : EngineInv s) (r' : ℕ)
    (hcol : s.col < s.n) (hr1 : s.row ≤ r') (hr2 : r' < s.n) :
    measV s + 1 ≤ measV { s with
      board := setCell s.board r' s.col 1
      stack := s.stack ++ [(r', s.col)]
      col := s.col + 1
      row := 0 } := by
  have hlenrows : (s.stack.map Prod.fst).length = s.col := by
    rw [List.length_map, h.stackLen]
  have hrowle := h.rowLe
  have e_old : measV s
      = (hornerVal (s.n + 2) (s.stack.map Prod.fst) * (s.n + 2) + (s.row + 1))
        * ((s.n + 2) ^ (s.n - s.col - 1) * (s.n + 2)) := by
    unfold measV wordOf
    rw [horner_snoc, List.length_append, hlenrows,
      show s.col + ([s.row] : List ℕ).length = s.col + 1 from rfl,
      show s.n + 1 - (s.col + 1) = (s.n - s.col - 1) + 1 from by omega,
      pow_succ]
  have e_new : measV { s with
      board := setCell s.board r' s.col 1
      stack := s.stack ++ [(r', s.col)]
      col := s.col + 1
      row := 0 }
      = ((hornerVal (s.n + 2) (s.stack.map Prod.fst) * (s.n + 2) + (r' + 1))
          * (s.n + 2) + 1) * (s.n + 2) ^ (s.n - s.col - 1) := by
    unfold measV wordOf
    dsimp only
    rw [List.map_append,
      show ([(r', s.col)].map Prod.fst : List ℕ) = [r'] from rfl,
      horner_snoc, horner_snoc, List.length_append, List.length_append,
      List.length_map, h.stackLen,
      show s.col + ([r'] : List ℕ).length + ([(0:ℕ)] : List ℕ).length = s.col + 2
        from rfl,
      show s.n + 1 - (s.col + 2) = s.n - s.col - 1 from by omega,
      show (0 : ℕ) + 1 = 1 from rfl]
  rw [e_old, e_new]
  have hBm : 0 < (s.n + 2) ^ (s.n - s.col - 1) := pow_pos (by omega) _
  have hle : (hornerVal (s.n + 2) (s.stack.map Prod.fst) * (s.n + 2) + (s.row + 1))
        * (s.n + 2)
      ≤ (hornerVal (s.n + 2) (s.stack.map Prod.fst) * (s.n + 2) + (r' + 1))
        * (s.n + 2) :=
    Nat.mul_le_mul_right _ (by omega)
  have h3 : (hornerVal (s.n + 2) (s.stack.map Prod.fst) * (s.n + 2) + (s.row + 1))
        * (s.n + 2) * (s.n + 2) ^ (s.n - s.col - 1)
      ≤ (hornerVal (s.n + 2) (s.stack.map Prod.fst) * (s.n + 2) + (r' + 1))
        * (s.n + 2) * (s.n + 2) ^ (s.n - s.col - 1) :=
    Nat.mul_le_mul_right _ hle
  calc (hornerVal (s.n + 2) (s.stack.map Prod.fst) * (s.n + 2) + (s.row + 1))
        * ((s.n + 2) ^ (s.n - s.col - 1) * (s.n + 2)) + 1
      = (hornerVal (s.n + 2) (s.stack.map Prod.fst) * (s.n + 2) + (s.row + 1))
        * (s.n + 2) * (s.n + 2) ^ (s.n - s.col - 1) + 1 := by ring
    _ ≤ (hornerVal (s.n + 2) (s.stack.map Prod.fst) * (s.n + 2) + (r' + 1))
        * (s.n + 2) * (s.n + 2) ^ (s.n - s.col - 1) + 1 := by omega
    _ ≤ (hornerVal (s.n + 2) (s.stack.map Prod.fst) * (s.n + 2) + (r' + 1))
        * (s.n + 2) * (s.n + 2) ^ (s.n - s.col - 1)
        + (s.n + 2) ^ (s.n - s.col - 1) := by omega
    _ = ((hornerVal (s.n + 2) (s.stack.map Prod.fst) * (s.n + 2) + (r' + 1))
        * (s.n + 2) + 1) * (s.n + 2) ^ (s.n - s.col - 1) := by ring

theorem measV_fail (s : SolverWrapper) (h : EngineInv s) (hcol : s.col < s.n) :
    measV s ≤ measV { s with row := s.n, backtracking := true } := by
  have hrowle := h.rowLe
  unfold measV wordOf
  dsimp only
  rw [horner_snoc, horner_snoc, List.length_append, List.length_append]
  apply Nat.mul_le_mul_right
  omega

theorem measV_pop (s : SolverWrapper) (h : EngineInv s) (p : ℕ × ℕ)
    (hlast : s.stack.getLast? = some p) :
    measV s + 1 ≤ measV { s with
      board := setCell s.board p.1 (s.col - 1) 0
      stack := s.stack.dropLast
      col := s.col - 1
      row := p.1 + 1
      backtracking := false } := by
  have hne : s.stack ≠ [] := by
    intro he
    rw [he] at hlast
    exact Option.noConfusion hlast
  have hsplit : s.stack = s.stack.dropLast ++ [p] := by
    have hg : s.stack.getLast hne = p := by
      have := List.getLast?_eq_getLast s.stack hne
      rw [hlast] at this
      exact (Option.some_injective _ this).symm
    rw [← hg]
    exact (List.dropLast_append_getLast hne).symm
  have hlen1 : 1 ≤ s.stack.length := List.length_pos.mpr hne
  have hcol1 : 1 ≤ s.col := h.stackLen ▸ hlen1
  have hcolle := h.colLe
  have hrowle := h.rowLe
  have hlendl : s.stack.dropLast.length = s.col - 1 := by
    rw [List.length_dropLast, h.stackLen]
  unfold measV wordOf
  dsimp only
  rw [show s.stack.map Prod.fst = s.stack.dropLast.map Prod.fst ++ [p.1] from by
      conv_lhs => rw [hsplit]
      rw [List.map_append]
      rfl]
  rw [horner_snoc, horner_snoc, horner_snoc, List.length_append,
    List.length_append, List.length_append, List.length_map, hlendl,
    show ([p.1] : List ℕ).length = 1 from rfl,
    show ([s.row] : List ℕ).length = 1 from rfl,
    show ([p.1 + 1] : List ℕ).length = 1 from rfl,
    show s.n + 1 - (s.col - 1 + 1) = (s.n + 1 - (s.col - 1 + 1 + 1)) + 1 from by
      omega,
    pow_succ]
  have hBe : 0 < (s.n + 2) ^ (s.n + 1 - (s.col - 1 + 1 + 1)) := pow_pos (by omega) _
  have hlt : (hornerVal (s.n + 2) (s.stack.dropLast.map Prod.fst) * (s.n + 2)
        + (p.1 + 1)) * (s.n + 2) + (s.row + 1)
      < (hornerVal (s.n + 2) (s.stack.dropLast.map Prod.fst) * (s.n + 2)
        + (p.1 + 1 + 1)) * (s.n + 2) := by
    have : (hornerVal (s.n + 2) (s.stack.dropLast.map Prod.fst) * (s.n + 2)
          + (p.1 + 1 + 1)) * (s.n + 2)
        = (hornerVal (s.n + 2) (s.stack.dropLast.map Prod.fst) * (s.n + 2)
          + (p.1 + 1)) * (s.n + 2) + (s.n + 2) := by ring
    omega
  have h3 := Nat.mul_lt_mul_of_lt_of_le hlt
    (le_refl ((s.n + 2) ^ (s.n + 1 - (s.col - 1 + 1 + 1)))) hBe
  have h4 : ((hornerVal (s.n + 2) (s.stack.dropLast.map Prod.fst) * (s.n + 2)
        + (p.1 + 1 + 1)) * (s.n + 2)) * (s.n + 2) ^ (s.n + 1 - (s.col - 1 + 1 + 1))
      = (hornerVal (s.n + 2) (s.stack.dropLast.map Prod.fst) * (s.n + 2)
        + (p.1 + 1 + 1)) * ((s.n + 2) ^ (s.n + 1 - (s.col - 1 + 1 + 1)) * (s.n + 2)) := by
    ring
  omega

theorem measV_stepForward_ge (s : SolverWrapper) (h : EngineInv s) :
    measV s ≤ measV s.stepForward.1 := by
  unfold SolverWrapper.stepForward
  by_cases hcol : s.n ≤ s.col
  · rw [if_pos hcol]
    exact le_of_eq rfl
  · rw [if_neg hcol]
    cases hfind : (List.range' s.row (s.n - s.row)).find?
        (fun r => s.is_safe r s.col) with
    | some r' =>
        have hmem := List.mem_range'_1.mp (List.mem_of_find?_eq_some hfind)
        have hrowle := h.rowLe
        have h2 := measV_place s h r' (by omega) (by omega) (by omega)
        show measV s ≤ measV { s with
          board := setCell s.board r' s.col 1
          stack := s.stack ++ [(r', s.col)]
          col := s.col + 1
          row := 0 }
        omega
    | none => exact measV_fail s h (by omega)

theorem measT_stepForward (s : SolverWrapper) (h : EngineInv s)
    (hb : s.backtracking = false) :
    measT s + 1 ≤ measT s.stepForward.1 := by
  have e0 : measT s = 2 * measV s := by
    unfold measT
    rw [hb]
    simp
  unfold SolverWrapper.stepForward
  by_cases hcol : s.n ≤ s.col
  · rw [if_pos hcol]
    show measT s + 1 ≤ measT { s.save_solution with backtracking := true }
    have e1 : measT { s.save_solution with backtracking := true }
        = 2 * measV s + 1 := rfl
    omega
  · rw [if_neg hcol]
    cases hfind : (List.range' s.row (s.n - s.row)).find?
        (fun r => s.is_safe r s.col) with
    | some r' =>
        have hmem := List.mem_range'_1.mp (List.mem_of_find?_eq_some hfind)
        have hrowle := h.rowLe
        show measT s + 1 ≤ measT { s with
          board := setCell s.board r' s.col 1
          stack := s.stack ++ [(r', s.col)]
          col := s.col + 1
          row := 0 }
        have e1 : measT { s with
            board := setCell s.board r' s.col 1
            stack := s.stack ++ [(r', s.col)]
            col := s.col + 1
            row := 0 }
            = 2 * measV { s with
            board := setCell s.board r' s.col 1
            stack := s.stack ++ [(r', s.col)]
            col := s.col + 1
            row := 0 } := by
          unfold measT
          rw [show ({ s with
            board := setCell s.board r' s.col 1
            stack := s.stack ++ [(r', s.col)]
            col := s.col + 1
            row := 0 } : SolverWrapper).backtracking = s.backtracking from rfl, hb]
          simp
        have h2 := measV_place s h r' (by omega) (by omega) (by omega)
        omega
    | none =>
        show measT s + 1 ≤ measT { s with row := s.n, backtracking := true }
        have e1 : measT { s with row := s.n, backtracking := true }
            = 2 * measV { s with row := s.n, backtracking := true } + 1 := rfl
        have h2 := measV_fail s h (by omega)
        omega

theorem measT_step (s : SolverWrapper) (h : EngineInv s) (hfin : s.finished = false) :
    s.step.1.finished = true ∨ measT s + 1 ≤ measT s.step.1 := by
  unfold SolverWrapper.step
  rw [if_neg (by rw [hfin]; exact Bool.false_ne_true)]
  by_cases hb : s.backtracking = true
  · rw [if_pos hb]
    by_cases hcr : s.col = 0 ∧ s.n ≤ s.row
    · rw [if_pos hcr]
      left
      rfl
    · rw [if_neg hcr]
      cases hlast : s.stack.getLast? with
      | none =>
          left
          rfl
      | some p =>
          right
          have hinv' := inv_pop s h p hlast
          have h1 := measV_pop s h p hlast
          have h2 := measV_stepForward_ge _ hinv'
          have e1 : measT s = 2 * measV s + 1 := by
            unfold measT
            rw [hb]
            simp
          calc measT s + 1 = 2 * measV s + 2 := by omega
            _ ≤ 2 * measV ({ s with
                board := setCell s.board p.1 (s.col - 1) 0
                stack := s.stack.dropLast
                col := s.col - 1
                row := p.1 + 1
                backtracking := false } : SolverWrapper) := by omega
            _ ≤ 2 * measV ({ s with
                board := setCell s.board p.1 (s.col - 1) 0
                stack := s.stack.dropLast
                col := s.col - 1
                row := p.1 + 1
                backtracking := false } : SolverWrapper).stepForward.1 := by omega
            _ ≤ measT ({ s with
                board := setCell s.board p.1 (s.col - 1) 0
                stack := s.stack.dropLast
                col := s.col - 1
                row := p.1 + 1
                backtracking := false } : SolverWrapper).stepForward.1 := by
              unfold measT
              omega
  · rw [if_neg hb]
    right
    exact measT_stepForward s h (by
      revert hb
      cases s.backtracking <;> simp)

theorem measT_lt (s : SolverWrapper) (h : EngineInv s) :
    measT s < 2 * (s.n + 2) ^ (s.n + 1) + 2 := by
  have hdig : ∀ d ∈ wordOf s, d + 1 < s.n + 2 := by
    intro d hd
    unfold wordOf at hd
    rcases List.mem_append.mp hd with h1 | h1
    · rcases List.mem_iff_getElem.mp h1 with ⟨i, hi, hie⟩
      have hi' : i < s.stack.length := by
        rw [List.length_map] at hi
        exact hi
      have hx := h.rowsLt i hi'
      rw [List.getD_eq_getElem?_getD, List.getElem?_eq_getElem hi] at hx
      simp only [Option.getD_some] at hx
      omega
    · have : d = s.row := by
        cases h1 with
        | head => rfl
        | tail _ hx => exact absurd hx (List.not_mem_nil d)
      have := h.rowLe
      omega
  have hword : (wordOf s).length ≤ s.n + 1 := by
    unfold wordOf
    rw [List.length_append, List.length_map, h.stackLen]
    have := h.colLe
    show s.col + 1 ≤ s.n + 1
    omega
  have h1 : hornerVal (s.n + 2) (wordOf s) < (s.n + 2) ^ (wordOf s).length :=
    horner_lt _ (by omega) _ hdig
  have h2 : measV s < (s.n + 2) ^ (s.n + 1) := by
    unfold measV
    calc hornerVal (s.n + 2) (wordOf s) * (s.n + 2) ^ (s.n + 1 - (wordOf s).length)
        < (s.n + 2) ^ (wordOf s).length * (s.n + 2) ^ (s.n + 1 - (wordOf s).length) :=
          Nat.mul_lt_mul_of_lt_of_le h1 (le_refl _) (pow_pos (by omega) _)
      _ = (s.n + 2) ^ ((wordOf s).length + (s.n + 1 - (wordOf s).length)) :=
          (pow_add _ _ _).symm
      _ = (s.n + 2) ^ (s.n + 1) := by
          rw [show (wordOf s).length + (s.n + 1 - (wordOf s).length) = s.n + 1 from
            by omega]
  unfold measT
  by_cases hb : s.backtracking = true
  · rw [hb]
    simp
    omega
  · rw [show s.backtracking = false from by revert hb; cases s.backtracking <;> simp]
    simp
    omega

/-! ## Termination and terminal-state behaviour -/

theorem step_finished (s : SolverWrapper) (h : s.finished = true) :
    s.step = (s, false) := by
  unfold SolverWrapper.step
  rw [if_pos h]

theorem run_finished (s : SolverWrapper) (h : s.finished = true) :
    ∀ k, s.run k = s
  | 0 => rfl
  | k + 1 => by
      show SolverWrapper.run s.step.1 k = s
      rw [step_finished s h]
      exact run_finished s h k

theorem run_add (s : SolverWrapper) (a b : ℕ) :
    s.run (a + b) = (s.run a).run b := by
  induction a generalizing s with
  | zero => rw [Nat.zero_add]; rfl
  | succ a ih =>
      rw [Nat.succ_add]
      show SolverWrapper.run s.step.1 (a + b) = _
      rw [ih s.step.1]
      rfl

theorem run_succ_right (s : SolverWrapper) (m : ℕ) :
    s.run (m + 1) = (s.run m).step.1 := by
  rw [run_add s m 1]
  rfl

theorem finished_mono (s : SolverWrapper) (m : ℕ)
    (h : (s.run m).finished = true) : ∀ k, m ≤ k → (s.run k).finished = true := by
  intro k hk
  rw [show k = m + (k - m) from by omega, run_add, run_finished _ h]
  exact h

theorem measT_chain (n : ℕ) :
    ∀ m, ((SolverWrapper.new n).run m).finished = false →
      m ≤ measT ((SolverWrapper.new n).run m) := by
  intro m
  induction m with
  | zero => omega
  | succ m ih =>
      intro hm
      have hmfin : ((SolverWrapper.new n).run m).finished = false := by
        cases hx : ((SolverWrapper.new n).run m).finished with
        | false => rfl
        | true =>
            exfalso
            have := finished_mono _ m hx (m + 1) (by omega)
            rw [this] at hm
            exact Bool.noConfusion hm
      have hstep := measT_step _ (inv_reach n m) hmfin
      rw [← run_succ_right] at hstep
      cases hstep with
      | inl hx => rw [hx] at hm; exact Bool.noConfusion hm
      | inr hx =>
          have := ih hmfin
          rw [run_succ_right]
          rw [run_succ_right] at hx
          omega

/-- The search space is exhausted after at most `2 * (n+2)^(n+1) + 2` calls. -/
theorem terminates (n : ℕ) :
    ((SolverWrapper.new n).run (2 * (n + 2) ^ (n + 1) + 2)).finished = true := by
  cases hx : ((SolverWrapper.new n).run (2 * (n + 2) ^ (n + 1) + 2)).finished with
  | true => rfl
  | false =>
      exfalso
      have h1 := measT_chain n _ hx
      have h2 := measT_lt _ (inv_reach n (2 * (n + 2) ^ (n + 1) + 2))
      rw [show ((SolverWrapper.new n).run (2 * (n + 2) ^ (n + 1) + 2)).n = n from by
        clear h1 h2 hx
        induction (2 * (n + 2) ^ (n + 1) + 2) with
        | zero => rfl
        | succ k ih => rw [run_succ_right, n_step, ih]] at h2
      omega

/-! ## Concrete runs

For small board sizes the engine is evaluated directly.  For `n = 8` the slim
simulation state is evaluated in checkpointed chunks (each chunk is verified by
`decide`, so the checkpoint values carry no trust). -/

theorem run_stable (s : SolverWrapper) (k : ℕ)
    (h : (s.run k).finished = true) : ∀ m, k ≤ m → s.run m = s.run k := by
  intro m hm
  rw [show m = k + (m - k) from by omega, run_add, run_finished _ h]

theorem frun_add (n : ℕ) (s : FState) (a b : ℕ) :
    frun n s (a + b) = frun n (frun n s a) b := by
  induction a generalizing s with
  | zero => rw [Nat.zero_add]; rfl
  | succ a ih =>
      rw [Nat.succ_add]
      show frun n (fastStep n s) (a + b) = _
      rw [ih (fastStep n s)]
      rfl

def fInit : FState := ⟨[], 0, false, false, 0⟩

def fchk1 : FState := ⟨[1, 3, 5, 7, 2, 0], 0, false, false, 4⟩

def fchk2 : FState := ⟨[2, 0, 3, 6, 4], 8, true, false, 12⟩

def fchk3 : FState := ⟨[2, 7, 5, 3, 0, 6, 4], 8, true, false, 28⟩

def fchk4 : FState := ⟨[3, 7, 0, 4, 6, 1], 0, false, false, 44⟩

def fchk5 : FState := ⟨[4, 7, 0, 3, 6], 8, true, false, 62⟩

def fchk6 : FState := ⟨[5, 3, 6], 8, true, false, 79⟩

def fchk7 : FState := ⟨[6, 3, 1, 7, 4, 0], 0, false, false, 86⟩

def fchk8 : FState := ⟨[7, 4, 2, 0, 6, 1], 0, false, false, 92⟩

def fchk9 : FState := ⟨[], 8, true, true, 92⟩

theorem frun8_chunk1 : frun 8 fInit 500 = fchk1 := by decide

theorem frun8_chunk2 : frun 8 fchk1 500 = fchk2 := by decide

theorem frun8_chunk3 : frun 8 fchk2 500 = fchk3 := by decide

theorem frun8_chunk4 : frun 8 fchk3 500 = fchk4 := by decide

theorem frun8_chunk5 : frun 8 fchk4 500 = fchk5 := by decide

theorem frun8_chunk6 : frun 8 fchk5 500 = fchk6 := by decide

theorem frun8_chunk7 : frun 8 fchk6 500 = fchk7 := by decide

theorem frun8_chunk8 : frun 8 fchk7 500 = fchk8 := by decide

theorem frun8_chunk9 : frun 8 fchk8 114 = fchk9 := by decide

theorem frun8_eq : frun 8 fInit 4114 = fchk9 := by
  rw [show (4114 : ℕ) = 500 + 3614 from by norm_num, frun_add, frun8_chunk1,
    show (3614 : ℕ) = 500 + 3114 from by norm_num, frun_add, frun8_chunk2,
    show (3114 : ℕ) = 500 + 2614 from by norm_num, frun_add, frun8_chunk3,
    show (2614 : ℕ) = 500 + 2114 from by norm_num, frun_add, frun8_chunk4,
    show (2114 : ℕ) = 500 + 1614 from by norm_num, frun_add, frun8_chunk5,
    show (1614 : ℕ) = 500 + 1114 from by norm_num, frun_add, frun8_chunk6,
    show (1114 : ℕ) = 500 + 614 from by norm_num, frun_add, frun8_chunk7,
    show (614 : ℕ) = 500 + 114 from by norm_num, frun_add, frun8_chunk8,
    frun8_chunk9]

theorem run8_absF : absF ((SolverWrapper.new 8).run 4114) = fchk9 := by
  have h := run_sim (SolverWrapper.new 8) (inv_new 8) 4114
  rw [show (SolverWrapper.new 8).n = 8 from rfl,
    show absF (SolverWrapper.new 8) = fInit from rfl] at h
  rw [h, frun8_eq]

theorem absF_finished (s : SolverWrapper) : (absF s).finished = s.finished := rfl

theorem absF_count (s : SolverWrapper) : (absF s).count = s.solutions.length := rfl

theorem run8_finished : ((SolverWrapper.new 8).run 4114).finished = true := by
  have h := congrArg FState.finished run8_absF
  rw [absF_finished] at h
  rw [h]
  rfl

theorem run8_count : ((SolverWrapper.new 8).run 4114).solutions.length = 92 := by
  have h := congrArg FState.count run8_absF
  rw [absF_count] at h
  rw [h]
  rfl

/-! ## Counting board mutations of a single step -/

/-- Number of cells that a step turned from empty to occupied (queen
placements). -/
def placedCount (n : ℕ) (b b' : List (List ℕ)) : ℕ :=
  Finset.sum (Finset.range n) fun r =>
    Finset.sum (Finset.range n) fun c =>
      if cell b r c = 0 ∧ cell b' r c = 1 then 1 else 0

/-- Number of cells that a step turned from occupied to empty (queen
removals). -/
def removedCount (n : ℕ) (b b' : List (List ℕ)) : ℕ :=
  Finset.sum (Finset.range n) fun r =>
    Finset.sum (Finset.range n) fun c =>
      if cell b r c = 1 ∧ cell b' r c = 0 then 1 else 0

theorem dsum_zero (n : ℕ) (f : ℕ → ℕ → ℕ)
    (hf : ∀ r, r < n → ∀ c, c < n → f r c = 0) :
    (Finset.sum (Finset.range n) fun r =>
      Finset.sum (Finset.range n) fun c => f r c) = 0 :=
  Finset.sum_eq_zero fun r hr =>
    Finset.sum_eq_zero fun c hc =>
      hf r (Finset.mem_range.mp hr) c (Finset.mem_range.mp hc)

theorem sum_ind_single (n i0 : ℕ) (h : i0 < n) :
    (Finset.sum (Finset.range n) fun i => if i = i0 then 1 else 0) = 1 := by
  rw [Finset.sum_ite_eq' (Finset.range n) i0 (fun _ => (1 : ℕ))]
  rw [if_pos (Finset.mem_range.mpr h)]

theorem dsum_single (n r0 c0 : ℕ) (hr : r0 < n) (hc : c0 < n) (f : ℕ → ℕ → ℕ)
    (hf : ∀ r, r < n → ∀ c, c < n → f r c = if r = r0 ∧ c = c0 then 1 else 0) :
    (Finset.sum (Finset.range n) fun r =>
      Finset.sum (Finset.range n) fun c => f r c) = 1 := by
  have e1 : (Finset.sum (Finset.range n) fun r =>
      Finset.sum (Finset.range n) fun c => f r c)
      = Finset.sum (Finset.range n) fun r => if r = r0 then 1 else 0 := by
    apply Finset.sum_congr rfl
    intro r hrm
    have hrn := Finset.mem_range.mp hrm
    by_cases hrr : r = r0
    · rw [if_pos hrr]
      have : (Finset.sum (Finset.range n) fun c => f r c)
          = Finset.sum (Finset.range n) fun c => if c = c0 then 1 else 0 := by
        apply Finset.sum_congr rfl
        intro c hcm
        rw [hf r hrn c (Finset.mem_range.mp hcm)]
        by_cases hcc : c = c0
        · rw [if_pos ⟨hrr, hcc⟩, if_pos hcc]
        · rw [if_neg (by tauto), if_neg hcc]
      rw [this]
      exact sum_ind_single n c0 hc
    · rw [if_neg hrr]
      apply Finset.sum_eq_zero
      intro c hcm
      rw [hf r hrn c (Finset.mem_range.mp hcm), if_neg (by tauto)]
  rw [e1]
  exact sum_ind_single n r0 hr

theorem counts_self (n : ℕ) (b : List (List ℕ)) :
    placedCount n b b = 0 ∧ removedCount n b b = 0 := by
  constructor
  · exact dsum_zero n _ fun r _ c _ => by
      rw [if_neg (by omega)]
  · exact dsum_zero n _ fun r _ c _ => by
      rw [if_neg (by omega)]

theorem counts_place {n : ℕ} {b : List (List ℕ)} (hwf : BoardWf n b)
    {r0 c0 : ℕ} (hr : r0 < n) (hc : c0 < n) (hcell : cell b r0 c0 = 0) :
    placedCount n b (setCell b r0 c0 1) = 1 ∧
    removedCount n b (setCell b r0 c0 1) = 0 := by
  constructor
  · apply dsum_single n r0 c0 hr hc
    intro r hrn c hcn
    rw [cell_setCell hwf hr hc 1 r c]
    by_cases hx : r = r0 ∧ c = c0
    · rw [if_pos hx, if_pos hx, if_pos ⟨by rw [hx.1, hx.2]; exact hcell, rfl⟩]
    · rw [if_neg hx, if_neg hx, if_neg (by omega)]
  · apply dsum_zero
    intro r hrn c hcn
    rw [cell_setCell hwf hr hc 1 r c]
    by_cases hx : r = r0 ∧ c = c0
    · rw [if_pos hx, if_neg (by
        rw [hx.1, hx.2]
        omega)]
    · rw [if_neg hx, if_neg (by omega)]

theorem counts_remove {n : ℕ} {b : List (List ℕ)} (hwf : BoardWf n b)
    {r0 c0 : ℕ} (hr : r0 < n) (hc : c0 < n) (hcell : cell b r0 c0 = 1) :
    placedCount n b (setCell b r0 c0 0) = 0 ∧
    removedCount n b (setCell b r0 c0 0) = 1 := by
  constructor
  · apply dsum_zero
    intro r hrn c hcn
    rw [cell_setCell hwf hr hc 0 r c]
    by_cases hx : r = r0 ∧ c = c0
    · rw [if_pos hx, if_neg (by
        rw [hx.1, hx.2]
        omega)]
    · rw [if_neg hx, if_neg (by omega)]
  · apply dsum_single n r0 c0 hr hc
    intro r hrn c hcn
    rw [cell_setCell hwf hr hc 0 r c]
    by_cases hx : r = r0 ∧ c = c0
    · rw [if_pos hx, if_pos ⟨by rw [hx.1, hx.2]; exact hcell, rfl⟩]
      exact (if_pos hx).symm
    · rw [if_neg hx, if_neg (by omega)]
      exact (if_neg hx).symm

theorem counts_pop_place {n : ℕ} {b : List (List ℕ)} (hwf : BoardWf n b)
    {r0 r1 c0 : ℕ} (hr0 : r0 < n) (hr1 : r1 < n) (hc : c0 < n)
    (hne : r1 ≠ r0) (hcell0 : cell b r0 c0 = 1) (hcell1 : cell b r1 c0 = 0) :
    placedCount n b (setCell (setCell b r0 c0 0) r1 c0 1) = 1 ∧
    removedCount n b (setCell (setCell b r0 c0 0) r1 c0 1) = 1 := by
  have hwf' : BoardWf n (setCell b r0 c0 0) := boardWf_setCell hwf r0 c0 0
  have hcc : ∀ r c, cell (setCell (setCell b r0 c0 0) r1 c0 1) r c
      = if r = r1 ∧ c = c0 then 1
        else if r = r0 ∧ c = c0 then 0 else cell b r c := by
    intro r c
    rw [cell_setCell hwf' hr1 hc 1 r c, cell_setCell hwf hr0 hc 0 r c]
  constructor
  · apply dsum_single n r1 c0 hr1 hc
    intro r hrn c hcn
    rw [hcc r c]
    by_cases hx : r = r1 ∧ c = c0
    · rw [if_pos hx, if_pos ⟨by rw [hx.1, hx.2]; exact hcell1, rfl⟩]
      exact (if_pos hx).symm
    · rw [if_neg hx]
      by_cases hy : r = r0 ∧ c = c0
      · rw [if_pos hy, if_neg (by omega)]
        exact (if_neg hx).symm
      · rw [if_neg hy, if_neg (by omega)]
        exact (if_neg hx).symm
  · apply dsum_single n r0 c0 hr0 hc
    intro r hrn c hcn
    rw [hcc r c]
    by_cases hx : r = r0 ∧ c = c0
    · rw [if_neg (show ¬(r = r1 ∧ c = c0) from by
        rintro ⟨h1, -⟩
        exact hne (by rw [← h1, hx.1])),
        if_pos hx,
        if_pos ⟨by rw [hx.1, hx.2]; exact hcell0, rfl⟩]
      exact (if_pos hx).symm
    · by_cases hy : r = r1 ∧ c = c0
      · rw [if_pos hy, if_neg (by omega)]
        exact (if_neg hx).symm
      · rw [if_neg hy, if_neg hx, if_neg (by omega)]
        exact (if_neg hx).symm

theorem step_counts (s : SolverWrapper) (h : EngineInv s) (hfin : s.finished = false) :
    placedCount s.n s.board s.step.1.board ≤ 1 ∧
    removedCount s.n s.board s.step.1.board ≤ 1 ∧
    s.step.1.solutions.length ≤ s.solutions.length + 1 ∧
    (s.step.1.solutions.length = s.solutions.length + 1 →
      placedCount s.n s.board s.step.1.board = 0 ∧
      removedCount s.n s.board s.step.1.board = 0) := by
  have hself := counts_self s.n s.board
  unfold SolverWrapper.step
  rw [if_neg (by rw [hfin]; exact Bool.false_ne_true)]
  by_cases hb : s.backtracking = true
  · rw [if_pos hb]
    by_cases hcr : s.col = 0 ∧ s.n ≤ s.row
    · rw [if_pos hcr]
      dsimp only
      exact ⟨by omega, by omega, by omega, fun he => by omega⟩
    · rw [if_neg hcr]
      cases hlast : s.stack.getLast? with
      | none =>
          dsimp only
          exact ⟨by omega, by omega, by omega, fun he => by omega⟩
      | some p =>
          have hne : s.stack ≠ [] := by
            intro he
            rw [he] at hlast
            exact Option.noConfusion hlast
          have hlen1 : 1 ≤ s.stack.length := List.length_pos.mpr hne
          have hcol1 : 1 ≤ s.col := h.stackLen ▸ hlen1
          have hcolle := h.colLe
          have hp : s.stack.getD (s.stack.length - 1) (0, 0) = p := by
            rw [List.getLast?_eq_getElem?] at hlast
            rw [List.getD_eq_getElem?_getD, hlast]
            rfl
          have hrows : (s.stack.map Prod.fst).getD (s.col - 1) 0 = p.1 := by
            rw [show s.col - 1 = s.stack.length - 1 from by rw [h.stackLen],
              getD_map_fst _ _ (by omega), hp]
          have hp1 : p.1 < s.n := by
            have := h.rowsLt (s.stack.length - 1) (by omega)
            rw [getD_map_fst _ _ (by omega), hp] at this
            exact this
          have hcell0 : cell s.board p.1 (s.col - 1) = 1 := by
            rw [h.cellEq p.1 (s.col - 1) hp1 (by omega), if_pos ⟨by omega, hrows⟩]
          unfold SolverWrapper.stepForward
          dsimp only
          rw [if_neg (show ¬ s.n ≤ s.col - 1 from by omega)]
          cases hf2 : (List.range' (p.1 + 1) (s.n - (p.1 + 1))).find?
              (fun r => SolverWrapper.is_safe { s with
                board := setCell s.board p.1 (s.col - 1) 0
                stack := s.stack.dropLast
                col := s.col - 1
                row := p.1 + 1
                backtracking := false } r (s.col - 1)) with
          | some r' =>
              dsimp only
              have hmem := List.mem_range'_1.mp (List.mem_of_find?_eq_some hf2)
              have hr'n : r' < s.n := by omega
              have hr'ne : r' ≠ p.1 := by omega
              have hcell1 : cell s.board r' (s.col - 1) = 0 := by
                rw [h.cellEq r' (s.col - 1) hr'n (by omega)]
                rw [if_neg (by
                  rintro ⟨-, hx⟩
                  rw [hrows] at hx
                  exact hr'ne hx.symm)]
              have hcpp := counts_pop_place h.wf hp1 hr'n
                (show s.col - 1 < s.n from by omega) hr'ne hcell0 hcell1
              exact ⟨by omega, by omega, by omega, fun he => by omega⟩
          | none =>
              dsimp only
              have hcr2 := counts_remove h.wf hp1
                (show s.col - 1 < s.n from by omega) hcell0
              exact ⟨by omega, by omega, by omega, fun he => by omega⟩
  · rw [if_neg hb]
    unfold SolverWrapper.stepForward
    by_cases hcol : s.n ≤ s.col
    · rw [if_pos hcol]
      dsimp only [SolverWrapper.save_solution]
      rw [List.length_append, List.length_singleton]
      refine ⟨by omega, by omega, by omega, fun he => by omega⟩
    · rw [if_neg hcol]
      cases hf : (List.range' s.row (s.n - s.row)).find?
          (fun r => s.is_safe r s.col) with
      | some r' =>
          dsimp only
          have hmem := List.mem_range'_1.mp (List.mem_of_find?_eq_some hf)
          have hrowle := h.rowLe
          have hr'n : r' < s.n := by omega
          have hcell1 : cell s.board r' s.col = 0 := by
            rw [h.cellEq r' s.col hr'n (by omega), if_neg (by omega)]
          have hcp := counts_place h.wf hr'n (show s.col < s.n from by omega) hcell1
          exact ⟨by omega, by omega, by omega, fun he => by omega⟩
      | none =>
          dsimp only
          exact ⟨by omega, by omega, by omega, fun he => by omega⟩

/-! ## Restoring the last solution -/

/-- Total number of queens on the `n × n` board. -/
def queensOn (n : ℕ) (b : List (List ℕ)) : ℕ :=
  Finset.sum (Finset.range n) fun r =>
    Finset.sum (Finset.range n) fun c => if cell b r c = 1 then 1 else 0

theorem run_n (n k : ℕ) : ((SolverWrapper.new n).run k).n = n := by
  induction k with
  | zero => rfl
  | succ k ih => rw [run_succ_right, n_step, ih]

theorem queensOn_of_matches {n : ℕ} {qr : List ℕ} {b : List (List ℕ)}
    (hm : BoardMatches n qr b) (hp : IsSolutionPerm n qr) : queensOn n b = n := by
  unfold queensOn
  rw [Finset.sum_comm]
  have e1 : (Finset.sum (Finset.range n) fun c =>
      Finset.sum (Finset.range n) fun r => if cell b r c = 1 then 1 else 0)
      = Finset.sum (Finset.range n) fun c => 1 := by
    apply Finset.sum_congr rfl
    intro c hcm
    have hcn := Finset.mem_range.mp hcm
    have hqr : qr.getD c 0 < n := by
      apply hp.2.1
      apply getD_mem_of_lt
      rw [hp.1]
      exact hcn
    have e2 : (Finset.sum (Finset.range n) fun r => if cell b r c = 1 then 1 else 0)
        = Finset.sum (Finset.range n) fun r => if r = qr.getD c 0 then 1 else 0 := by
      apply Finset.sum_congr rfl
      intro r hrm
      rw [hm.2 r c (Finset.mem_range.mp hrm) hcn]
      by_cases hx : qr.getD c 0 = r
      · rw [if_pos hx, if_pos rfl, if_pos hx.symm]
      · rw [if_neg hx, if_neg (show (0 : ℕ) ≠ 1 from by omega),
          if_neg (fun hy => hx hy.symm)]
    rw [e2]
    exact sum_ind_single n _ hqr
  rw [e1, Finset.sum_const, Finset.card_range, smul_eq_mul, mul_one]

theorem restore_of_solutions (s : SolverWrapper) (h : EngineInv s)
    (hsol : s.solutions ≠ []) :
    ∃ b qr,
      s.last_solution_board = some b ∧
      s.restore_last_solution.board = b ∧
      queensOn s.n b = s.n ∧
      IsSolutionPerm s.n qr ∧
      BoardMatches s.n qr b ∧
      s.unique_solutions.getLast? = some qr ∧
      (s.solutions.getLast? = some (permString s.n qr) ∨
       s.solutions.getLast? = some ("(Sym) " ++ permString s.n qr)) := by
  have hsnap := h.snap
  unfold SnapInv at hsnap
  cases hlb : s.last_solution_board with
  | none =>
      rw [hlb] at hsnap
      exact absurd hsnap.1 hsol
  | some b =>
      rw [hlb] at hsnap
      obtain ⟨qr, hperm, hmatch, huniq, hlog⟩ := hsnap
      refine ⟨b, qr, rfl, ?_, queensOn_of_matches hmatch hperm, hperm, hmatch,
        huniq, hlog⟩
      unfold SolverWrapper.restore_last_solution
      rw [hlb]

theorem run1_facts : ((SolverWrapper.new 1).run 4).finished = true ∧
    ((SolverWrapper.new 1).run 4).solutions.length = 1 := by decide

theorem run2_facts : ((SolverWrapper.new 2).run 6).finished = true ∧
    ((SolverWrapper.new 2).run 6).solutions.length = 0 := by decide

theorem run3_facts : ((SolverWrapper.new 3).run 12).finished = true ∧
    ((SolverWrapper.new 3).run 12).solutions.length = 0 := by decide

theorem run4_facts : ((SolverWrapper.new 4).run 34).finished = true ∧
    ((SolverWrapper.new 4).run 34).solutions.length = 2 := by decide

theorem run4_detail :
    ((SolverWrapper.new 4).run 34).solutions
        = ["a2, b4, c1, d3", "(Sym) a3, b1, c4, d2"] ∧
      ((SolverWrapper.new 4).run 34).unique_solutions
        = [[1, 3, 0, 2], [2, 0, 3, 1]] := by decide

/-! ## The claims -/

/-- C3: in every engine state reachable from a fresh engine by `step()` calls,
queens lie only in columns `[0, col)`, column `c < col` holds exactly the queen
recorded in the stack for column `c`, placed queens are pairwise non-attacking
(no shared row, column or diagonal; distinct stack positions are distinct
columns), and all columns `≥ col` are empty. -/
theorem claim_C3 (n k : ℕ) :
    (∀ r c, r < n → c < n → ((SolverWrapper.new n).run k).col ≤ c →
      cell ((SolverWrapper.new n).run k).board r c = 0) ∧
    (∀ r c, r < n → c < n →
      (cell ((SolverWrapper.new n).run k).board r c = 1 ↔
        c < ((SolverWrapper.new n).run k).col ∧
        (((SolverWrapper.new n).run k).stack.map Prod.fst).getD c 0 = r)) ∧
    (∀ i j, i < j → j < ((SolverWrapper.new n).run k).stack.length →
      NoTouch ((((SolverWrapper.new n).run k).stack.map Prod.fst).getD i 0) i
        ((((SolverWrapper.new n).run k).stack.map Prod.fst).getD j 0) j) := by
  have h := inv_reach n k
  have hn := run_n n k
  refine ⟨?_, ?_, h.noatt⟩
  · intro r c hr hc hcol
    rw [h.cellEq r c (by omega) (by omega), if_neg (by omega)]
  · intro r c hr hc
    rw [h.cellEq r c (by omega) (by omega)]
    by_cases hx : c < ((SolverWrapper.new n).run k).col ∧
        ((((SolverWrapper.new n).run k).stack.map Prod.fst)).getD c 0 = r
    · rw [if_pos hx]
      exact ⟨fun _ => hx, fun _ => rfl⟩
    · rw [if_neg hx]
      exact ⟨fun hy => absurd hy (by omega), fun hy => absurd hy hx⟩

/-- C4: in every reachable engine state the placement stack length equals the
current column index, and the `i`-th stack entry is `(row, i)` — the row of the
queen standing in column `i` of the board. -/
theorem claim_C4 (n k : ℕ) :
    ((SolverWrapper.new n).run k).stack.length = ((SolverWrapper.new n).run k).col ∧
    (∀ i, i < ((SolverWrapper.new n).run k).stack.length →
      (((SolverWrapper.new n).run k).stack.getD i (0, 0)).2 = i ∧
      cell ((SolverWrapper.new n).run k).board
        (((SolverWrapper.new n).run k).stack.getD i (0, 0)).1 i = 1) := by
  have h := inv_reach n k
  refine ⟨h.stackLen, fun i hi => ⟨h.stackIdx i hi, ?_⟩⟩
  have hin : i < ((SolverWrapper.new n).run k).n := by
    have := h.stackLen
    have := h.colLe
    omega
  have hfst : (((SolverWrapper.new n).run k).stack.map Prod.fst).getD i 0
      = (((SolverWrapper.new n).run k).stack.getD i (0, 0)).1 :=
    getD_map_fst _ _ hi
  have hr : (((SolverWrapper.new n).run k).stack.getD i (0, 0)).1
      < ((SolverWrapper.new n).run k).n := by
    have := h.rowsLt i hi
    rw [hfst] at this
    exact this
  rw [h.cellEq _ i hr hin, if_pos ⟨by
    have := h.stackLen
    omega, hfst⟩]

/-- C5: on a board satisfying the engine invariant (queens confined to columns
below the cursor, at most one per column), `is_safe row col` is true exactly
when no placed queen in a column `< col` shares the row or either diagonal
through `(row, col)`. -/
theorem claim_C5 (s : SolverWrapper) (row : ℕ)
    (hwf : BoardWf s.n s.board)
    (hlt : ∀ r, r < s.n → ∀ c, c < s.n → s.col ≤ c → cell s.board r c = 0)
    (hone : ∀ c, c < s.n → ∀ r1, r1 < s.n → ∀ r2, r2 < s.n →
      cell s.board r1 c = 1 → cell s.board r2 c = 1 → r1 = r2)
    (hrow : row < s.n) :
    s.is_safe row s.col = true ↔
      ∀ r c, cell s.board r c = 1 → c < s.col →
        ¬(r = row ∨ r + s.col = row + c ∨ row + s.col = r + c) := by
  have hq : ∀ r c, cell s.board r c = 1 → c < s.col := by
    intro r c hcell
    have hb := cell_lt_of_ne_zero hwf (r := r) (c := c) (by omega)
    by_contra hcon
    have := hlt r hb.1 c hb.2 (by omega)
    omega
  rw [is_safe_iff s row s.col hwf hrow hq]
  constructor
  · intro h1 r c hcell _
    have h2 := h1 r c hcell
    unfold NoTouch at h2
    tauto
  · intro h1 r c hcell
    have h2 := h1 r c hcell (hq r c hcell)
    unfold NoTouch
    tauto

/-- Concrete state for the C5 witness: one queen at row 1 of column 0,
cursor at column 1. -/
def c5state : SolverWrapper :=
  ⟨2, [[0, 0], [1, 0]], [], [(1, 0)], 1, 0, false, false, none, []⟩

/-- C5 witness: the characterization applied to a concrete two-queens board. -/
theorem claim_C5_witness :
    (BoardWf c5state.n c5state.board ∧
     (∀ r, r < c5state.n → ∀ c, c < c5state.n → c5state.col ≤ c →
        cell c5state.board r c = 0) ∧
     (∀ c, c < c5state.n → ∀ r1, r1 < c5state.n → ∀ r2, r2 < c5state.n →
        cell c5state.board r1 c = 1 → cell c5state.board r2 c = 1 → r1 = r2) ∧
     1 < c5state.n) ∧
    (c5state.is_safe 1 c5state.col = true ↔
      ∀ r c, cell c5state.board r c = 1 → c < c5state.col →
        ¬(r = 1 ∨ r + c5state.col = 1 + c ∨ 1 + c5state.col = r + c)) :=
  ⟨⟨by unfold BoardWf; decide, by decide, by decide, by decide⟩,
   claim_C5 c5state 1 (by unfold BoardWf; decide) (by decide) (by decide)
     (by decide)⟩

/-- C6: every recording appends exactly one entry to the solutions log — the
coordinate string, prefixed `"(Sym) "` exactly when a symmetry variant of the
row-permutation is already in the unique-solution set — and exactly one entry
(the row-permutation itself, in both cases) to the unique-solution set, and
refreshes the snapshot. -/
theorem claim_C6 (s : SolverWrapper) :
    s.save_solution.solutions = s.solutions ++
      [if s.is_new_unique s.queen_rows then s.sol_str
       else "(Sym) " ++ s.sol_str] ∧
    s.save_solution.unique_solutions = s.unique_solutions ++ [s.queen_rows] ∧
    s.save_solution.solutions.length = s.solutions.length + 1 ∧
    s.save_solution.unique_solutions.length = s.unique_solutions.length + 1 ∧
    (s.is_new_unique s.queen_rows = false ↔
      ∃ v ∈ SolverWrapper.get_variants s.queen_rows, v ∈ s.unique_solutions) ∧
    s.save_solution.last_solution_board = some s.board := by
  refine ⟨rfl, rfl, ?_, ?_, ?_, rfl⟩
  · show (s.solutions ++ [_]).length = _
    rw [List.length_append, List.length_singleton]
  · show (s.unique_solutions ++ [_]).length = _
    rw [List.length_append, List.length_singleton]
  · unfold SolverWrapper.is_new_unique
    constructor
    · intro hfalse
      have hany : (SolverWrapper.get_variants s.queen_rows).any
          (fun v => s.unique_solutions.contains v) = true := by
        revert hfalse
        cases (SolverWrapper.get_variants s.queen_rows).any
            (fun v => s.unique_solutions.contains v) <;> simp
      rcases List.any_eq_true.mp hany with ⟨v, hv, hvc⟩
      exact ⟨v, hv, List.elem_iff.mp hvc⟩
    · rintro ⟨v, hv, hvm⟩
      have hany : (SolverWrapper.get_variants s.queen_rows).any
          (fun v => s.unique_solutions.contains v) = true :=
        List.any_eq_true.mpr ⟨v, hv, List.elem_iff.mpr hvm⟩
      rw [hany]
      rfl

/-- C7: for N = 4 the exhaustive run records exactly the row-permutations
`[1,3,0,2]` then `[2,0,3,1]` (in that discovery order); they are symmetry
variants of each other, and the log holds 2 entries of which exactly the
second is tagged `"(Sym) "`. -/
theorem claim_C7 :
    ((SolverWrapper.new 4).run 34).finished = true ∧
    ((SolverWrapper.new 4).run 34).unique_solutions
      = [[1, 3, 0, 2], [2, 0, 3, 1]] ∧
    ((SolverWrapper.new 4).run 34).solutions
      = ["a2, b4, c1, d3", "(Sym) a3, b1, c4, d2"] ∧
    [2, 0, 3, 1] ∈ SolverWrapper.get_variants [1, 3, 0, 2] ∧
    ((SolverWrapper.new 4).run 34).solutions.length = 2 := by decide

/-- C9: in a finished state `step()` returns `false` and changes nothing;
repeated calls are idempotent. -/
theorem claim_C9 (s : SolverWrapper) (h : s.finished = true) :
    s.step = (s, false) ∧ ∀ k, s.run k = s :=
  ⟨step_finished s h, run_finished s h⟩

/-- C9 witness: the terminal state of the N = 1 search. -/
theorem claim_C9_witness :
    ((SolverWrapper.new 1).run 4).finished = true ∧
    (((SolverWrapper.new 1).run 4).step = ((SolverWrapper.new 1).run 4, false) ∧
     ∀ k, ((SolverWrapper.new 1).run 4).run k = (SolverWrapper.new 1).run 4) :=
  ⟨by decide, claim_C9 _ (by decide)⟩

/-- C10: when no solution has been recorded (snapshot absent),
`restore_last_solution()` changes nothing. -/
theorem claim_C10 (s : SolverWrapper) (h : s.last_solution_board = none) :
    s.restore_last_solution = s := by
  unfold SolverWrapper.restore_last_solution
  rw [h]

/-- C10 witness: the exhausted N = 2 search never recorded a solution. -/
theorem claim_C10_witness :
    ((SolverWrapper.new 2).run 6).last_solution_board = none ∧
    ((SolverWrapper.new 2).run 6).restore_last_solution
      = (SolverWrapper.new 2).run 6 :=
  ⟨by decide, claim_C10 _ (by decide)⟩

/-- C1: for every N ≥ 1 the run reaches the finished flag after finitely many
steps (explicitly, within `2*(N+2)^(N+1) + 2` calls), the state is then
stationary, and the solutions log then holds the known solution count for
N = 1, 2, 3, 4 and 8. -/
theorem claim_C1 (n : ℕ) (hn : 1 ≤ n) :
    ∃ k, ((SolverWrapper.new n).run k).finished = true ∧
      (∀ m, k ≤ m → (SolverWrapper.new n).run m = (SolverWrapper.new n).run k) ∧
      (n = 1 → ((SolverWrapper.new n).run k).solutions.length = 1) ∧
      (n = 2 → ((SolverWrapper.new n).run k).solutions.length = 0) ∧
      (n = 3 → ((SolverWrapper.new n).run k).solutions.length = 0) ∧
      (n = 4 → ((SolverWrapper.new n).run k).solutions.length = 2) ∧
      (n = 8 → ((SolverWrapper.new n).run k).solutions.length = 92) := by
  by_cases h1 : n = 1
  · subst h1
    exact ⟨4, run1_facts.1, run_stable _ 4 run1_facts.1, fun _ => run1_facts.2,
      fun h => absurd h (by omega), fun h => absurd h (by omega),
      fun h => absurd h (by omega), fun h => absurd h (by omega)⟩
  by_cases h2 : n = 2
  · subst h2
    exact ⟨6, run2_facts.1, run_stable _ 6 run2_facts.1,
      fun h => absurd h (by omega), fun _ => run2_facts.2,
      fun h => absurd h (by omega), fun h => absurd h (by omega),
      fun h => absurd h (by omega)⟩
  by_cases h3 : n = 3
  · subst h3
    exact ⟨12, run3_facts.1, run_stable _ 12 run3_facts.1,
      fun h => absurd h (by omega), fun h => absurd h (by omega),
      fun _ => run3_facts.2, fun h => absurd h (by omega),
      fun h => absurd h (by omega)⟩
  by_cases h4 : n = 4
  · subst h4
    exact ⟨34, run4_facts.1, run_stable _ 34 run4_facts.1,
      fun h => absurd h (by omega), fun h => absurd h (by omega),
      fun h => absurd h (by omega), fun _ => run4_facts.2,
      fun h => absurd h (by omega)⟩
  by_cases h8 : n = 8
  · subst h8
    exact ⟨4114, run8_finished, run_stable _ 4114 run8_finished,
      fun h => absurd h (by omega), fun h => absurd h (by omega),
      fun h => absurd h (by omega), fun h => absurd h (by omega),
      fun _ => run8_count⟩
  · exact ⟨2 * (n + 2) ^ (n + 1) + 2, terminates n,
      run_stable _ _ (terminates n), fun h => absurd h h1, fun h => absurd h h2,
      fun h => absurd h h3, fun h => absurd h h4, fun h => absurd h h8⟩

/-- C1 witness: instantiated at N = 2. -/
theorem claim_C1_witness :
    1 ≤ 2 ∧
    ∃ k, ((SolverWrapper.new 2).run k).finished = true ∧
      (∀ m, k ≤ m → (SolverWrapper.new 2).run m = (SolverWrapper.new 2).run k) ∧
      (2 = 1 → ((SolverWrapper.new 2).run k).solutions.length = 1) ∧
      (2 = 2 → ((SolverWrapper.new 2).run k).solutions.length = 0) ∧
      (2 = 3 → ((SolverWrapper.new 2).run k).solutions.length = 0) ∧
      (2 = 4 → ((SolverWrapper.new 2).run k).solutions.length = 2) ∧
      (2 = 8 → ((SolverWrapper.new 2).run k).solutions.length = 92) :=
  ⟨by decide, claim_C1 2 (by decide)⟩

/-- C2 counterexample: from the fresh N = 4 engine, the third call performs no
placement, no removal and no recording (it merely switches to backtrack mode),
and the fourth call performs one removal *and* one placement — so a call does
not perform exactly one atomic unit of work. -/
theorem claim_C2_counterexample :
    ((SolverWrapper.new 4).run 3).finished = false ∧
    placedCount 4 ((SolverWrapper.new 4).run 3).board
      ((SolverWrapper.new 4).run 3).step.1.board = 1 ∧
    removedCount 4 ((SolverWrapper.new 4).run 3).board
      ((SolverWrapper.new 4).run 3).step.1.board = 1 ∧
    ((SolverWrapper.new 4).run 3).step.1.solutions.length
      = ((SolverWrapper.new 4).run 3).solutions.length ∧
    ((SolverWrapper.new 4).run 2).finished = false ∧
    placedCount 4 ((SolverWrapper.new 4).run 2).board
      ((SolverWrapper.new 4).run 2).step.1.board = 0 ∧
    removedCount 4 ((SolverWrapper.new 4).run 2).board
      ((SolverWrapper.new 4).run 2).step.1.board = 0 ∧
    ((SolverWrapper.new 4).run 2).step.1.solutions.length
      = ((SolverWrapper.new 4).run 2).solutions.length := by decide

/-- C2 (amended): every non-terminal call performs at most one placement, at
most one removal and at most one recording; a recording excludes board
changes.  (A removal may be followed by a placement in the same call, and some
calls perform none of the three.) -/
theorem claim_C2_amended (n k : ℕ)
    (hfin : ((SolverWrapper.new n).run k).finished = false) :
    placedCount n ((SolverWrapper.new n).run k).board
        ((SolverWrapper.new n).run k).step.1.board ≤ 1 ∧
    removedCount n ((SolverWrapper.new n).run k).board
        ((SolverWrapper.new n).run k).step.1.board ≤ 1 ∧
    ((SolverWrapper.new n).run k).step.1.solutions.length
      ≤ ((SolverWrapper.new n).run k).solutions.length + 1 ∧
    (((SolverWrapper.new n).run k).step.1.solutions.length
        = ((SolverWrapper.new n).run k).solutions.length + 1 →
      placedCount n ((SolverWrapper.new n).run k).board
          ((SolverWrapper.new n).run k).step.1.board = 0 ∧
      removedCount n ((SolverWrapper.new n).run k).board
          ((SolverWrapper.new n).run k).step.1.board = 0) := by
  have h := step_counts _ (inv_reach n k) hfin
  rw [run_n n k] at h
  exact h

/-- C2 amended witness: the first call on a fresh N = 4 engine. -/
theorem claim_C2_amended_witness :
    ((SolverWrapper.new 4).run 0).finished = false ∧
    (placedCount 4 ((SolverWrapper.new 4).run 0).board
        ((SolverWrapper.new 4).run 0).step.1.board ≤ 1 ∧
     removedCount 4 ((SolverWrapper.new 4).run 0).board
        ((SolverWrapper.new 4).run 0).step.1.board ≤ 1 ∧
     ((SolverWrapper.new 4).run 0).step.1.solutions.length
       ≤ ((SolverWrapper.new 4).run 0).solutions.length + 1 ∧
     (((SolverWrapper.new 4).run 0).step.1.solutions.length
         = ((SolverWrapper.new 4).run 0).solutions.length + 1 →
       placedCount 4 ((SolverWrapper.new 4).run 0).board
           ((SolverWrapper.new 4).run 0).step.1.board = 0 ∧
       removedCount 4 ((SolverWrapper.new 4).run 0).board
           ((SolverWrapper.new 4).run 0).step.1.board = 0)) :=
  ⟨by decide, claim_C2_amended 4 0 (by decide)⟩

/-- C8 counterexample: for N = 2 the search finishes with an empty solutions
log, no snapshot, and `restore_last_solution()` leaves the empty board — not a
board with 2 queens matching a log entry. -/
theorem claim_C8_counterexample :
    ((SolverWrapper.new 2).run 6).finished = true ∧
    ((SolverWrapper.new 2).run 6).solutions = [] ∧
    ((SolverWrapper.new 2).run 6).restore_last_solution.board
      = [[0, 0], [0, 0]] ∧
    queensOn 2 ((SolverWrapper.new 2).run 6).restore_last_solution.board = 0 ∧
    ¬ queensOn 2 ((SolverWrapper.new 2).run 6).restore_last_solution.board
        = 2 := by decide

/-- C8 (amended): after the run finishes, *provided at least one solution was
recorded*, `restore_last_solution()` repaints the board to the snapshot: a
board with exactly N pairwise non-attacking queens at the positions of the
last recorded row-permutation, which is what the last solutions-log entry
spells out (possibly behind a `"(Sym) "` tag). -/
theorem claim_C8_amended (n k : ℕ)
    (hfin : ((SolverWrapper.new n).run k).finished = true)
    (hsol : ((SolverWrapper.new n).run k).solutions ≠ []) :
    ∃ b qr,
      ((SolverWrapper.new n).run k).last_solution_board = some b ∧
      ((SolverWrapper.new n).run k).restore_last_solution.board = b ∧
      queensOn n b = n ∧
      IsSolutionPerm n qr ∧
      BoardMatches n qr b ∧
      ((SolverWrapper.new n).run k).unique_solutions.getLast? = some qr ∧
      (((SolverWrapper.new n).run k).solutions.getLast?
          = some (permString n qr) ∨
       ((SolverWrapper.new n).run k).solutions.getLast?
          = some ("(Sym) " ++ permString n qr)) := by
  have h := restore_of_solutions _ (inv_reach n k) hsol
  rw [run_n n k] at h
  exact h

/-- C8 amended witness: the finished N = 4 run. -/
theorem claim_C8_amended_witness :
    ((SolverWrapper.new 4).run 34).finished = true ∧
    ((SolverWrapper.new 4).run 34).solutions ≠ [] ∧
    ∃ b qr,
      ((SolverWrapper.new 4).run 34).last_solution_board = some b ∧
      ((SolverWrapper.new 4).run 34).restore_last_solution.board = b ∧
      queensOn 4 b = 4 ∧
      IsSolutionPerm 4 qr ∧
      BoardMatches 4 qr b ∧
      ((SolverWrapper.new 4).run 34).unique_solutions.getLast? = some qr ∧
      (((SolverWrapper.new 4).run 34).solutions.getLast?
          = some (permString 4 qr) ∨
       ((SolverWrapper.new 4).run 34).solutions.getLast?
          = some ("(Sym) " ++ permString 4 qr)) :=
  ⟨by decide, by decide, claim_C8_amended 4 34 (by decide) (by decide)⟩
